import Mathlib

/-!
Verification of the orchestration layer of a conversational data-analysis
agent.  The Lean definitions below are a shallow embedding of the Python
source: the DAG data model (`dag/models.py`), the DAG executor
(`agent/executor.py`), the conversation compactor (`agent/compactor.py`),
the WebSocket confirmation gate (`api/websocket.py`) and the session
manager (`session/manager.py`).  Pure functions are translated to Lean
functions; stateful code is translated to explicit state passing; Python
exceptions are modelled with `Option`/`Except`; external collaborators
(tools, the LLM, the token encoder, the filesystem) are parameters.
-/

namespace DataAgent

/-- Python single-quote character, used when rendering `str()` of values. -/
def quoteChar : Char := Char.ofNat 39

/-- `{` as a character. -/
def lbrace : Char := Char.ofNat 123

/-- `}` as a character. -/
def rbrace : Char := Char.ofNat 125

/-- Node execution states, from `NodeStatus` in `dag/models.py`. -/
inductive NodeStatus where
  | pending
  | running
  | completed
  | failed
  | skipped
deriving DecidableEq, Repr

/-- The `.value` of a `NodeStatus` (it is a `str` enum). -/
def NodeStatus.toStr : NodeStatus → String
  | .pending => "pending"
  | .running => "running"
  | .completed => "completed"
  | .failed => "failed"
  | .skipped => "skipped"

/-- `NodeStatus(s)`: Python enum construction from a string; raises
(`none`) on an unknown value. -/
def NodeStatus.ofStr (s : String) : Option NodeStatus :=
  if s = "pending" then some .pending
  else if s = "running" then some .running
  else if s = "completed" then some .completed
  else if s = "failed" then some .failed
  else if s = "skipped" then some .skipped
  else none

/-- Runtime values flowing through node parameters and the executor
result map.  `verr msg` models the dict `{"error": msg}` that the
executor stores for a failed node. -/
inductive Value where
  | vstr (s : String)
  | vint (n : Int)
  | vbool (b : Bool)
  | vnone
  | verr (msg : String)
deriving DecidableEq, Repr

/-- Python `str()` of a value. -/
def pyStr : Value → String
  | .vstr s => s
  | .vint n => toString n
  | .vbool true => "True"
  | .vbool false => "False"
  | .vnone => "None"
  | .verr m =>
      String.singleton lbrace ++ String.singleton quoteChar ++ "error" ++
        String.singleton quoteChar ++ ": " ++ String.singleton quoteChar ++ m ++
        String.singleton quoteChar ++ String.singleton rbrace

/-- A parameter mapping / result mapping: an insertion-ordered dict. -/
abbrev Params := List (String × Value)

/-- Dict lookup (`d.get(k)`): first (only) entry with the key. -/
def dictGet : List (String × Value) → String → Option Value
  | [], _ => none
  | kv :: t, k => if kv.1 = k then some kv.2 else dictGet t k

/-- `DAGNode` from `dag/models.py`.  `executionTime` stands for the
wall-clock `execution_time` float; it is carried as a rational. -/
structure DAGNode where
  id : String
  name : String
  tool : String
  params : Params := []
  dependencies : List String := []
  status : NodeStatus := .pending
  result : Option Value := none
  error : Option String := none
  executionTime : ℚ := 0
deriving DecidableEq, Repr

/-- `DAGPlan` from `dag/models.py` (the `_node_map` cache is derived
state and is not part of the embedding). -/
structure DAGPlan where
  nodes : List DAGNode := []
  name : String := "执行计划"
  description : String := ""
deriving DecidableEq, Repr

/-- The dictionary produced by `DAGNode.to_dict` / consumed by
`DAGNode.from_dict`.  Optional fields model keys that `from_dict` reads
with `.get` and a default; `result`/`error` conflate an absent key with
a `None` value, exactly as `dict.get` does. -/
structure NodeDict where
  id : String
  name : String
  tool : String
  params : Option Params := none
  dependencies : Option (List String) := none
  status : Option String := none
  result : Option Value := none
  error : Option String := none
  executionTime : Option ℚ := none
deriving DecidableEq, Repr

/-- `DAGNode.to_dict`. -/
def DAGNode.toDict (n : DAGNode) : NodeDict :=
  { id := n.id
    name := n.name
    tool := n.tool
    params := some n.params
    dependencies := some n.dependencies
    status := some n.status.toStr
    result := n.result
    error := n.error
    executionTime := some n.executionTime }

/-- `DAGNode.from_dict`; `none` models the `ValueError` raised by
`NodeStatus(...)` on an unknown status string. -/
def DAGNode.fromDict (d : NodeDict) : Option DAGNode :=
  (NodeStatus.ofStr (d.status.getD "pending")).map fun st =>
    { id := d.id
      name := d.name
      tool := d.tool
      params := d.params.getD []
      dependencies := d.dependencies.getD []
      status := st
      result := d.result
      error := d.error
      executionTime := d.executionTime.getD 0 }

/-- The dictionary produced by `DAGPlan.to_dict`. -/
structure PlanDict where
  name : Option String := none
  description : Option String := none
  nodes : Option (List NodeDict) := none
deriving DecidableEq, Repr

/-- `DAGPlan.to_dict`. -/
def DAGPlan.toDict (p : DAGPlan) : PlanDict :=
  { name := some p.name
    description := some p.description
    nodes := some (p.nodes.map DAGNode.toDict) }

/-- A list comprehension over a fallible element conversion: the first
raised exception propagates. -/
def optMap {α β : Type} (f : α → Option β) : List α → Option (List β)
  | [] => some []
  | a :: t =>
      match f a, optMap f t with
      | some b, some bs => some (b :: bs)
      | _, _ => none

/-- `DAGPlan.from_dict`; a `ValueError` raised while converting any node
propagates (modelled by `optMap`). -/
def DAGPlan.fromDict (d : PlanDict) : Option DAGPlan :=
  (optMap DAGNode.fromDict (d.nodes.getD [])).map fun ns =>
    { nodes := ns
      name := d.name.getD "执行计划"
      description := d.description.getD "" }

/-! ## Topological sort and validation (`dag/models.py`) -/

/-- Assignment into a Python dict keyed by strings: replace the existing
entry in place (keys are unique), otherwise append in insertion order. -/
def setKey : List (String × Int) → String → Int → List (String × Int)
  | [], k, v => [(k, v)]
  | kv :: t, k, v => if kv.1 == k then (k, v) :: t else kv :: setKey t k v

/-- Dict lookup returning the stored in-degree. -/
def lookupInt : List (String × Int) → String → Option Int
  | [], _ => none
  | kv :: t, k => if kv.1 = k then some kv.2 else lookupInt t k

/-- `{node.id: len(node.dependencies) for node in self.nodes}` — a dict
comprehension, later duplicates overwriting earlier ones. -/
def initialInDeg (nodes : List DAGNode) : List (String × Int) :=
  nodes.foldl (fun d n => setKey d n.id (n.dependencies.length : Int)) []

/-- The inner `for other in self.nodes` pass of `topological_sort`:
decrement the in-degree of every node that depends on the popped node
and append the ones that reach zero to the queue. -/
def processOthers (popped : DAGNode) :
    List DAGNode → List (String × Int) → List DAGNode → List (String × Int) × List DAGNode
  | [], d, app => (d, app)
  | other :: rest, d, app =>
      if popped.id ∈ other.dependencies then
        if (lookupInt d other.id).getD 0 - 1 = 0 then
          processOthers popped rest
            (setKey d other.id ((lookupInt d other.id).getD 0 - 1)) (app ++ [other])
        else
          processOthers popped rest
            (setKey d other.id ((lookupInt d other.id).getD 0 - 1)) app
      else processOthers popped rest d app

/-- The `while queue` loop of `topological_sort` (fuel-driven; the fuel
passed by `topologicalSort` exceeds the number of iterations the Python
loop can perform, so exhaustion is unreachable). -/
def kahnLoop (allNodes : List DAGNode) :
    Nat → List (String × Int) → List DAGNode → List DAGNode → List DAGNode
  | 0, _, _, result => result
  | _ + 1, _, [], result => result
  | fuel + 1, deg, n :: rest, result =>
      let s := processOthers n allNodes deg []
      kahnLoop allNodes fuel s.1 (rest ++ s.2) (result ++ [n])

/-- `DAGPlan.topological_sort`: Kahn's algorithm; `none` models the
`ValueError` raised when the result does not cover all nodes. -/
def DAGPlan.topologicalSort (p : DAGPlan) : Option (List DAGNode) :=
  let deg0 := initialInDeg p.nodes
  let queue0 := p.nodes.filter fun n => (lookupInt deg0 n.id).getD 0 == 0
  let res := kahnLoop p.nodes (2 * p.nodes.length + 1) deg0 queue0 []
  if res.length = p.nodes.length then some res else none

/-- `DAGPlan.validate`: duplicate-id check, dangling-dependency check,
cycle check (by running the sort). -/
def DAGPlan.validate (p : DAGPlan) : List String :=
  (if (p.nodes.map (·.id)).Nodup then [] else ["存在重复的节点ID"]) ++
    (p.nodes.flatMap fun n =>
      (n.dependencies.filter fun d => !(p.nodes.any fun m => m.id == d)).map
        fun d => "节点 " ++ n.id ++ " 依赖不存在的节点 " ++ d) ++
    (if p.topologicalSort.isSome then [] else ["存在循环依赖"])

lemma lookupInt_setKey_self (d : List (String × Int)) (k : String) (v : Int) :
    lookupInt (setKey d k v) k = some v := by
  induction d with
  | nil => simp [setKey, lookupInt]
  | cons kv t ih =>
      by_cases h : kv.1 = k
      · simp [setKey, lookupInt, h]
      · simp [setKey, lookupInt, h, ih]

lemma lookupInt_setKey_ne (d : List (String × Int)) (k k' : String) (v : Int)
    (h : k' ≠ k) : lookupInt (setKey d k v) k' = lookupInt d k' := by
  induction d with
  | nil => simp [setKey, lookupInt, Ne.symm h]
  | cons kv t ih =>
      by_cases hk : kv.1 = k
      · have hk' : ¬ kv.1 = k' := fun hh => h (hh ▸ hk ▸ rfl)
        simp [setKey, lookupInt, hk, Ne.symm h, hk']
      · by_cases hk' : kv.1 = k'
        · simp [setKey, lookupInt, hk, hk', h]
        · simp [setKey, lookupInt, hk, hk', ih]

lemma lookupInt_foldl_notMem (ns : List DAGNode) (k : String)
    (h : k ∉ ns.map (·.id)) :
    ∀ d0, lookupInt (ns.foldl (fun d n => setKey d n.id (n.dependencies.length : Int)) d0) k
      = lookupInt d0 k := by
  induction ns with
  | nil => intro d0; rfl
  | cons n t ih =>
      intro d0
      simp only [List.map_cons, List.mem_cons] at h
      push_neg at h
      simp only [List.foldl_cons]
      rw [ih h.2, lookupInt_setKey_ne _ _ _ _ h.1]

lemma lookupInt_foldl_mem (ns : List DAGNode) (x : DAGNode)
    (hx : x ∈ ns) (hnd : (ns.map (·.id)).Nodup) :
    ∀ d0, lookupInt (ns.foldl (fun d n => setKey d n.id (n.dependencies.length : Int)) d0) x.id
      = some (x.dependencies.length : Int) := by
  induction ns with
  | nil => cases hx
  | cons n t ih =>
      intro d0
      simp only [List.map_cons, List.nodup_cons] at hnd
      simp only [List.foldl_cons]
      rcases List.mem_cons.mp hx with rfl | hxt
      · rw [lookupInt_foldl_notMem t x.id hnd.1, lookupInt_setKey_self]
      · exact ih hxt hnd.2 _

lemma lookupInt_initialInDeg (ns : List DAGNode) (x : DAGNode)
    (hx : x ∈ ns) (hnd : (ns.map (·.id)).Nodup) :
    lookupInt (initialInDeg ns) x.id = some (x.dependencies.length : Int) :=
  lookupInt_foldl_mem ns x hx hnd []

/-- Behaviour of one full `for other in self.nodes` pass: every node that
depends on the popped node has its in-degree decremented, the others are
untouched, and exactly the nodes whose in-degree was 1 are appended to
the queue, in list order. -/
lemma processOthers_spec (popped : DAGNode) (g : DAGNode → Int) :
    ∀ (ns : List DAGNode), (ns.map (·.id)).Nodup →
      ∀ d app0, (∀ x ∈ ns, lookupInt d x.id = some (g x)) →
      (∀ k, k ∉ ns.map (·.id) →
          lookupInt (processOthers popped ns d app0).1 k = lookupInt d k) ∧
      (∀ x ∈ ns, lookupInt (processOthers popped ns d app0).1 x.id
          = some (g x - (if popped.id ∈ x.dependencies then 1 else 0))) ∧
      (processOthers popped ns d app0).2
        = app0 ++ ns.filter (fun x => decide (popped.id ∈ x.dependencies) && (g x == 1)) := by
  intro ns
  induction ns with
  | nil => intro _ d app0 _; exact ⟨fun k _ => rfl, fun x hx => absurd hx (by simp), by simp [processOthers]⟩
  | cons other t ih =>
      intro hnd d app0 hd
      simp only [List.map_cons, List.nodup_cons] at hnd
      by_cases hmem : popped.id ∈ other.dependencies
      · have hval : lookupInt d other.id = some (g other) := hd other (by simp)
        have hv : (lookupInt d other.id).getD 0 - 1 = g other - 1 := by rw [hval]; rfl
        have hd2 : ∀ x ∈ t, lookupInt (setKey d other.id ((lookupInt d other.id).getD 0 - 1)) x.id
            = some (g x) := by
          intro x hx
          have hne : x.id ≠ other.id := fun hh => hnd.1 (hh ▸ List.mem_map_of_mem (·.id) hx)
          rw [lookupInt_setKey_ne _ _ _ _ hne]
          exact hd x (List.mem_cons_of_mem _ hx)
        by_cases hz : (lookupInt d other.id).getD 0 - 1 = 0
        · have hg1 : g other = 1 := by rw [hv] at hz; omega
          have heq : processOthers popped (other :: t) d app0
              = processOthers popped t
                  (setKey d other.id ((lookupInt d other.id).getD 0 - 1)) (app0 ++ [other]) := by
            simp only [processOthers, if_pos hmem, if_pos hz]
          obtain ⟨ih1, ih2, ih3⟩ := ih hnd.2 _ (app0 ++ [other]) hd2
          rw [heq]
          refine ⟨?_, ?_, ?_⟩
          · intro k hk
            simp only [List.map_cons, List.mem_cons] at hk
            push_neg at hk
            rw [ih1 k hk.2, lookupInt_setKey_ne _ _ _ _ hk.1]
          · intro x hx
            rcases List.mem_cons.mp hx with rfl | hxt
            · rw [ih1 x.id hnd.1, lookupInt_setKey_self, hv]
              simp [hmem]
            · exact ih2 x hxt
          · rw [ih3, List.filter_cons]
            simp [hmem, hg1, List.append_assoc]
        · have hg1 : g other ≠ 1 := by rw [hv] at hz; omega
          have heq : processOthers popped (other :: t) d app0
              = processOthers popped t
                  (setKey d other.id ((lookupInt d other.id).getD 0 - 1)) app0 := by
            simp only [processOthers, if_pos hmem, if_neg hz]
          obtain ⟨ih1, ih2, ih3⟩ := ih hnd.2 _ app0 hd2
          rw [heq]
          refine ⟨?_, ?_, ?_⟩
          · intro k hk
            simp only [List.map_cons, List.mem_cons] at hk
            push_neg at hk
            rw [ih1 k hk.2, lookupInt_setKey_ne _ _ _ _ hk.1]
          · intro x hx
            rcases List.mem_cons.mp hx with rfl | hxt
            · rw [ih1 x.id hnd.1, lookupInt_setKey_self, hv]
              simp [hmem]
            · exact ih2 x hxt
          · rw [ih3, List.filter_cons]
            simp [hmem, hg1]
      · have heq : processOthers popped (other :: t) d app0 = processOthers popped t d app0 := by
          simp only [processOthers, if_neg hmem]
        obtain ⟨ih1, ih2, ih3⟩ := ih hnd.2 d app0
          (fun x hx => hd x (List.mem_cons_of_mem _ hx))
        rw [heq]
        refine ⟨?_, ?_, ?_⟩
        · intro k hk
          simp only [List.map_cons, List.mem_cons] at hk
          push_neg at hk
          exact ih1 k hk.2
        · intro x hx
          rcases List.mem_cons.mp hx with rfl | hxt
          · rw [ih1 x.id hnd.1, hd x (by simp)]
            simp [hmem]
          · exact ih2 x hxt
        · rw [ih3, List.filter_cons]
          simp [hmem]

/-- How many already-popped nodes satisfy a dependency of `x`. -/
def paid (x : DAGNode) (result : List DAGNode) : Nat :=
  (result.filter fun r => decide (r.id ∈ x.dependencies)).length

/-- The current in-degree of `x` after the nodes in `result` were popped. -/
def dOf (x : DAGNode) (result : List DAGNode) : Int :=
  (x.dependencies.length : Int) - paid x result

lemma paid_filter_ids_nodup (x : DAGNode) (result : List DAGNode)
    (h : (result.map (·.id)).Nodup) :
    ((result.filter fun r => decide (r.id ∈ x.dependencies)).map (·.id)).Nodup :=
  h.sublist ((List.filter_sublist _).map _)

lemma paid_le (x : DAGNode) (result : List DAGNode)
    (h : (result.map (·.id)).Nodup) : paid x result ≤ x.dependencies.length := by
  have hnd := paid_filter_ids_nodup x result h
  have hsub : ((result.filter fun r => decide (r.id ∈ x.dependencies)).map (·.id)).toFinset
      ⊆ x.dependencies.toFinset := by
    intro a ha
    simp only [List.mem_toFinset, List.mem_map, List.mem_filter] at ha ⊢
    obtain ⟨r, ⟨_, hr⟩, rfl⟩ := ha
    exact of_decide_eq_true hr
  calc paid x result
      = ((result.filter fun r => decide (r.id ∈ x.dependencies)).map (·.id)).length := by
        simp [paid]
    _ = ((result.filter fun r => decide (r.id ∈ x.dependencies)).map (·.id)).toFinset.card :=
        (List.toFinset_card_of_nodup hnd).symm
    _ ≤ x.dependencies.toFinset.card := Finset.card_le_card hsub
    _ ≤ x.dependencies.length := List.toFinset_card_le x.dependencies

lemma dOf_nonneg (x : DAGNode) (result : List DAGNode)
    (h : (result.map (·.id)).Nodup) : 0 ≤ dOf x result := by
  have := paid_le x result h
  simp only [dOf]
  omega

/-- If every dependency of `x` has been paid for, then every dependency
id is among the popped ids. -/
lemma paid_saturated (x : DAGNode) (result : List DAGNode)
    (h : (result.map (·.id)).Nodup) (hsat : paid x result = x.dependencies.length) :
    ∀ d ∈ x.dependencies, d ∈ result.map (·.id) := by
  intro d hd
  set f := result.filter fun r => decide (r.id ∈ x.dependencies) with hf
  have hnd := paid_filter_ids_nodup x result h
  have hsub : (f.map (·.id)).toFinset ⊆ x.dependencies.toFinset := by
    intro a ha
    simp only [hf, List.mem_toFinset, List.mem_map, List.mem_filter] at ha ⊢
    obtain ⟨r, ⟨_, hr⟩, rfl⟩ := ha
    exact of_decide_eq_true hr
  have hcard : x.dependencies.toFinset.card ≤ (f.map (·.id)).toFinset.card := by
    rw [List.toFinset_card_of_nodup hnd]
    have : (f.map (·.id)).length = paid x result := by simp [paid, hf]
    rw [this, hsat]
    exact List.toFinset_card_le x.dependencies
  have heq := Finset.eq_of_subset_of_card_le hsub hcard
  have : d ∈ (f.map (·.id)).toFinset := by
    rw [heq]
    exact List.mem_toFinset.mpr hd
  have hdm : d ∈ f.map (·.id) := List.mem_toFinset.mp this
  obtain ⟨r, hr, rfl⟩ := List.mem_map.mp hdm
  exact List.mem_map_of_mem _ (List.mem_of_mem_filter hr)

lemma paid_append_single (x : DAGNode) (result : List DAGNode) (n : DAGNode) :
    paid x (result ++ [n]) = paid x result + (if n.id ∈ x.dependencies then 1 else 0) := by
  by_cases hmem : n.id ∈ x.dependencies <;> simp [paid, List.filter_append, hmem]

lemma dOf_append_single (x : DAGNode) (result : List DAGNode) (n : DAGNode) :
    dOf x (result ++ [n]) = dOf x result - (if n.id ∈ x.dependencies then 1 else 0) := by
  simp only [dOf, paid_append_single]
  by_cases hmem : n.id ∈ x.dependencies
  · simp [hmem]
    omega
  · simp [hmem]

/-- Nodes of a duplicate-free plan are determined by their id. -/
lemma id_inj {nodes : List DAGNode} (hnd : (nodes.map (·.id)).Nodup)
    {x y : DAGNode} (hx : x ∈ nodes) (hy : y ∈ nodes) (he : x.id = y.id) : x = y :=
  List.inj_on_of_nodup_map hnd hx hy he

/-- The loop invariant of Kahn's algorithm as implemented by
`topological_sort`. -/
structure KahnInv (nodes : List DAGNode) (deg : List (String × Int))
    (queue result : List DAGNode) : Prop where
  deg_eq : ∀ x ∈ nodes, lookupInt deg x.id = some (dOf x result)
  nodup : ((result ++ queue).map (·.id)).Nodup
  members : ∀ x ∈ result ++ queue, x ∈ nodes
  mem_iff : ∀ x ∈ nodes, (x.id ∈ (result ++ queue).map (·.id)) ↔ dOf x result = 0
  ordered : ∀ pre x post, result = pre ++ x :: post → ∀ d ∈ x.dependencies, d ∈ pre.map (·.id)
  ready : ∀ x ∈ queue, ∀ d ∈ x.dependencies, d ∈ result.map (·.id)

lemma append_singleton_cases {α : Type} (l pre : List α) (a x : α) (post : List α)
    (h : l ++ [a] = pre ++ x :: post) :
    (pre = l ∧ x = a ∧ post = []) ∨ (∃ post', l = pre ++ x :: post') := by
  rcases List.eq_nil_or_concat post with rfl | ⟨post', b, rfl⟩
  · left
    have h' : l ++ [a] = pre ++ [x] := h
    obtain ⟨h1, h2⟩ := List.append_inj' h' (by simp)
    exact ⟨h1.symm, (List.cons.injEq _ _ _ _ ▸ h2.symm).1.symm ▸ rfl, rfl⟩
  · right
    have h' : l ++ [a] = (pre ++ x :: post') ++ [b] := by
      rw [h]; simp
    obtain ⟨h1, _⟩ := List.append_inj' h' (by simp)
    exact ⟨post', h1⟩

lemma kahnInv_step (nodes : List DAGNode)
    (hnd : (nodes.map (·.id)).Nodup)
    (deg : List (String × Int)) (n : DAGNode) (rest result : List DAGNode)
    (inv : KahnInv nodes deg (n :: rest) result) :
    KahnInv nodes (processOthers n nodes deg []).1
      (rest ++ (processOthers n nodes deg []).2) (result ++ [n]) := by
  obtain ⟨hpo1, hpo2, hpo3⟩ :=
    processOthers_spec n (fun x => dOf x result) nodes hnd deg [] inv.deg_eq
  set app := (processOthers n nodes deg []).2 with happ
  have hsplit : result ++ [n] ++ (rest ++ app) = (result ++ n :: rest) ++ app := by
    simp
  have h1 : ((result ++ n :: rest).map (·.id)).Nodup := inv.nodup
  have h1' := h1
  rw [List.map_append, List.nodup_append] at h1'
  have hresNodup : (result.map (·.id)).Nodup := h1'.1
  have hnIdNotRes : n.id ∉ result.map (·.id) := by
    intro hmem
    exact h1'.2.2 hmem (by simp)
  have hres1Nodup : ((result ++ [n]).map (·.id)).Nodup := by
    rw [List.map_append, List.nodup_append]
    exact ⟨hresNodup, List.nodup_singleton _, by
      intro a ha hb
      simp only [List.map_cons, List.map_nil, List.mem_singleton] at hb
      exact hnIdNotRes (hb ▸ ha)⟩
  have keyA : ∀ x ∈ app, x ∈ nodes ∧ n.id ∈ x.dependencies ∧ dOf x result = 1 := by
    intro x hx
    rw [hpo3] at hx
    simp only [List.mem_filter, List.nil_append] at hx
    obtain ⟨hxn, hpred⟩ := hx
    simp only [Bool.and_eq_true, decide_eq_true_eq, beq_iff_eq] at hpred
    exact ⟨hxn, hpred.1, hpred.2⟩
  have keyB : ∀ x ∈ app, x.id ∉ (result ++ n :: rest).map (·.id) := by
    intro x hx hmem
    obtain ⟨hxn, _, hone⟩ := keyA x hx
    have := (inv.mem_iff x hxn).mp hmem
    omega
  refine ⟨?_, ?_, ?_, ?_, ?_, ?_⟩
  · intro x hx
    rw [dOf_append_single]
    exact hpo2 x hx
  · rw [hsplit, List.map_append, List.nodup_append]
    refine ⟨h1, ?_, ?_⟩
    · have : app.Sublist nodes := by rw [hpo3, List.nil_append]; exact List.filter_sublist nodes
      exact hnd.sublist (this.map _)
    · intro a ha hb
      obtain ⟨y, hy, rfl⟩ := List.mem_map.mp hb
      exact keyB y hy ha
  · intro x hx
    rw [hsplit] at hx
    rcases List.mem_append.mp hx with h | h
    · exact inv.members x h
    · rw [hpo3] at h
      simp only [List.mem_filter, List.nil_append] at h
      exact h.1
  · intro x hx
    have hold := inv.mem_iff x hx
    rw [hsplit, List.map_append, List.mem_append, dOf_append_single]
    by_cases hxo : x.id ∈ (result ++ n :: rest).map (·.id)
    · have h0 : dOf x result = 0 := hold.mp hxo
      have hdec : n.id ∉ x.dependencies := by
        intro hmem
        have hsat : paid x result = x.dependencies.length := by
          unfold dOf at h0; omega
        exact hnIdNotRes (paid_saturated x result hresNodup hsat n.id hmem)
      rw [if_neg hdec]
      constructor
      · intro _
        omega
      · intro _
        exact Or.inl hxo
    · have hne : dOf x result ≠ 0 := fun hh => hxo (hold.mpr hh)
      have hpos : 1 ≤ dOf x result := by
        have := dOf_nonneg x result hresNodup
        omega
      constructor
      · intro hmem
        rcases hmem with h | h
        · exact absurd h hxo
        · obtain ⟨y, hy, hyx⟩ := List.mem_map.mp h
          obtain ⟨hyn, hydep, hyone⟩ := keyA y hy
          have heq : y = x := id_inj hnd hyn hx hyx
          subst heq
          rw [if_pos hydep]
          omega
      · intro hz
        by_cases hdec : n.id ∈ x.dependencies
        · have hone : dOf x result = 1 := by rw [if_pos hdec] at hz; omega
          right
          refine List.mem_map_of_mem _ ?_
          rw [hpo3]
          simp only [List.mem_filter, List.nil_append]
          exact ⟨hx, by simp [hdec, hone]⟩
        · rw [if_neg hdec] at hz
          omega
  · intro pre x post hdecomp d hd
    rcases append_singleton_cases result pre n x post hdecomp with ⟨rfl, rfl, rfl⟩ | ⟨post', hres⟩
    · exact inv.ready x (by simp) d hd
    · exact inv.ordered pre x post' hres d hd
  · intro x hx d hd
    rcases List.mem_append.mp hx with h | h
    · have := inv.ready x (List.mem_cons_of_mem _ h) d hd
      rw [List.map_append, List.mem_append]
      exact Or.inl this
    · obtain ⟨hxn, hxdep, hxone⟩ := keyA x h
      have hsat : paid x (result ++ [n]) = x.dependencies.length := by
        rw [paid_append_single, if_pos hxdep]
        unfold dOf at hxone
        omega
      exact paid_saturated x (result ++ [n]) hres1Nodup hsat d hd

/-- Whatever the fuel, the list produced by the Kahn loop from an
invariant-satisfying state has unique ids, draws its nodes from the
plan, and lists every node after all of its dependencies. -/
lemma kahnLoop_out (nodes : List DAGNode) (hnd : (nodes.map (·.id)).Nodup) :
    ∀ (fuel : Nat) deg queue result, KahnInv nodes deg queue result →
      ((kahnLoop nodes fuel deg queue result).map (·.id)).Nodup ∧
      (∀ x ∈ kahnLoop nodes fuel deg queue result, x ∈ nodes) ∧
      (∀ pre x post, kahnLoop nodes fuel deg queue result = pre ++ x :: post →
        ∀ d ∈ x.dependencies, d ∈ pre.map (·.id)) := by
  intro fuel
  induction fuel with
  | zero =>
      intro deg queue result inv
      have hres : (result.map (·.id)).Nodup := by
        have := inv.nodup
        rw [List.map_append, List.nodup_append] at this
        exact this.1
      exact ⟨hres, fun x hx => inv.members x (List.mem_append_left _ hx), inv.ordered⟩
  | succ f ih =>
      intro deg queue result inv
      cases queue with
      | nil =>
          have hres : (result.map (·.id)).Nodup := by
            have := inv.nodup
            rw [List.map_append, List.nodup_append] at this
            exact this.1
          exact ⟨hres, fun x hx => inv.members x (List.mem_append_left _ hx), inv.ordered⟩
      | cons n rest =>
          simp only [kahnLoop]
          exact ih _ _ _ (kahnInv_step nodes hnd deg n rest result inv)

/-- The state at loop entry satisfies the invariant. -/
lemma kahnInv_init (nodes : List DAGNode) (hnd : (nodes.map (·.id)).Nodup) :
    KahnInv nodes (initialInDeg nodes)
      (nodes.filter fun n => (lookupInt (initialInDeg nodes) n.id).getD 0 == 0) [] := by
  have hdeg : ∀ x ∈ nodes, lookupInt (initialInDeg nodes) x.id
      = some (x.dependencies.length : Int) := fun x hx => lookupInt_initialInDeg nodes x hx hnd
  have hpred : ∀ x ∈ nodes,
      ((lookupInt (initialInDeg nodes) x.id).getD 0 == 0) = true ↔ x.dependencies.length = 0 := by
    intro x hx
    rw [hdeg x hx]
    simp
  refine ⟨?_, ?_, ?_, ?_, ?_, ?_⟩
  · intro x hx
    rw [hdeg x hx]
    simp [dOf, paid]
  · rw [List.nil_append]
    exact hnd.sublist ((List.filter_sublist nodes).map _)
  · intro x hx
    rw [List.nil_append] at hx
    exact List.mem_of_mem_filter hx
  · intro x hx
    rw [List.nil_append]
    constructor
    · intro hmem
      obtain ⟨y, hy, hyx⟩ := List.mem_map.mp hmem
      have hyn := List.mem_of_mem_filter hy
      have heq : y = x := id_inj hnd hyn hx hyx
      subst heq
      have h0 := (hpred y hyn).mp (List.mem_filter.mp hy).2
      unfold dOf
      have hp : paid y [] = 0 := rfl
      omega
    · intro hz
      refine List.mem_map_of_mem _ (List.mem_filter.mpr ⟨hx, ?_⟩)
      refine (hpred x hx).mpr ?_
      unfold dOf at hz
      have hp : paid x [] = 0 := rfl
      omega
  · intro pre x post hdecomp
    exact absurd hdecomp (by simp)
  · intro x hx d hd
    have := (hpred x (List.mem_of_mem_filter hx)).mp (List.mem_filter.mp hx).2
    rw [List.length_eq_zero.mp this] at hd
    cases hd

/-- Unpack a successful `validate`: unique ids, no dangling
dependencies, and a successful sort. -/
lemma validate_parts (p : DAGPlan) (h : p.validate = []) :
    (p.nodes.map (·.id)).Nodup ∧
    (∀ n ∈ p.nodes, ∀ d ∈ n.dependencies, d ∈ p.nodes.map (·.id)) ∧
    p.topologicalSort.isSome := by
  unfold DAGPlan.validate at h
  rw [List.append_eq_nil, List.append_eq_nil] at h
  obtain ⟨⟨hA, hB⟩, hC⟩ := h
  refine ⟨?_, ?_, ?_⟩
  · by_cases hc : (p.nodes.map (·.id)).Nodup
    · exact hc
    · simp [hc] at hA
  · intro n hn d hd
    have hinner := List.flatMap_eq_nil_iff.mp hB n hn
    rw [List.map_eq_nil_iff] at hinner
    have := List.filter_eq_nil_iff.mp hinner d hd
    simp only [Bool.not_eq_true', Bool.not_eq_false] at this
    obtain ⟨m, hm, hmd⟩ := List.any_eq_true.mp this
    rw [beq_iff_eq] at hmd
    exact hmd ▸ List.mem_map_of_mem _ hm
  · by_cases hc : p.topologicalSort.isSome
    · exact hc
    · simp [hc] at hC

lemma processOthers_nodeps (popped : DAGNode) (ns : List DAGNode)
    (h : ∀ x ∈ ns, x.dependencies = []) :
    ∀ d app, processOthers popped ns d app = (d, app) := by
  induction ns with
  | nil => intro d app; rfl
  | cons other t ih =>
      intro d app
      have hmem : popped.id ∉ other.dependencies := by
        rw [h other (by simp)]
        simp
      simp only [processOthers, if_neg hmem]
      exact ih (fun x hx => h x (List.mem_cons_of_mem _ hx)) d app

lemma kahnLoop_nodeps (nodes : List DAGNode)
    (h : ∀ x ∈ nodes, x.dependencies = []) :
    ∀ (queue : List DAGNode) (fuel : Nat) deg result, queue.length ≤ fuel →
      kahnLoop nodes fuel deg queue result = result ++ queue := by
  intro queue
  induction queue with
  | nil =>
      intro fuel deg result _
      cases fuel <;> simp [kahnLoop]
  | cons n rest ih =>
      intro fuel deg result hfuel
      cases fuel with
      | zero => simp at hfuel
      | succ f =>
          simp only [kahnLoop, processOthers_nodeps n nodes h deg []]
          rw [List.append_nil, ih f _ _ (by simpa using hfuel)]
          simp

lemma nodup_id_pos_eq (l : List DAGNode) (h : (l.map (·.id)).Nodup)
    (i j : Nat) (hi : i < l.length) (hj : j < l.length)
    (he : (l.get ⟨i, hi⟩).id = (l.get ⟨j, hj⟩).id) : i = j := by
  have hinj := List.nodup_iff_injective_get.mp h
  have hi' : i < (l.map (·.id)).length := by simpa using hi
  have hj' : j < (l.map (·.id)).length := by simpa using hj
  have h1 : (l.map (·.id)).get ⟨i, hi'⟩ = (l.get ⟨i, hi⟩).id := by
    simp [List.get_eq_getElem, List.getElem_map]
  have h2 : (l.map (·.id)).get ⟨j, hj'⟩ = (l.get ⟨j, hj⟩).id := by
    simp [List.get_eq_getElem, List.getElem_map]
  have := hinj (h1.trans (he.trans h2.symm))
  exact congrArg Fin.val this

/-- C1: for every `DAGPlan` that passes validation (unique node ids, no
dangling dependencies, acyclic), `topological_sort` returns a list that
is a permutation of the plan nodes (every node exactly once), in which
every node appears strictly after each of its dependencies.  The output
is a pure function of the plan (deterministic); the stable insertion
-order tie-break is witnessed by the fully tied case: when no node has
dependencies, the output is exactly the plan order. -/
theorem C1_topological_sort (p : DAGPlan) (h : p.validate = []) :
    ∃ l, p.topologicalSort = some l ∧ l.Perm p.nodes ∧
      (∀ (i j : Nat) (hi : i < l.length) (hj : j < l.length),
        (l.get ⟨i, hi⟩).id ∈ (l.get ⟨j, hj⟩).dependencies → i < j) ∧
      ((∀ n ∈ p.nodes, n.dependencies = []) → l = p.nodes) := by
  obtain ⟨hnd, hcl, hsome⟩ := validate_parts p h
  obtain ⟨hNodup, hMem, hOrd⟩ :=
    kahnLoop_out p.nodes hnd (2 * p.nodes.length + 1) _ _ _ (kahnInv_init p.nodes hnd)
  have hDef : p.topologicalSort =
      if (kahnLoop p.nodes (2 * p.nodes.length + 1) (initialInDeg p.nodes)
            (p.nodes.filter fun n => (lookupInt (initialInDeg p.nodes) n.id).getD 0 == 0)
            []).length = p.nodes.length
      then some (kahnLoop p.nodes (2 * p.nodes.length + 1) (initialInDeg p.nodes)
            (p.nodes.filter fun n => (lookupInt (initialInDeg p.nodes) n.id).getD 0 == 0) [])
      else none := rfl
  by_cases hlen : (kahnLoop p.nodes (2 * p.nodes.length + 1) (initialInDeg p.nodes)
      (p.nodes.filter fun n => (lookupInt (initialInDeg p.nodes) n.id).getD 0 == 0)
      []).length = p.nodes.length
  · refine ⟨_, by rw [hDef, if_pos hlen], ?_, ?_, ?_⟩
    · have hknodup := List.Nodup.of_map _ hNodup
      have hsub : kahnLoop p.nodes (2 * p.nodes.length + 1) (initialInDeg p.nodes)
          (p.nodes.filter fun n => (lookupInt (initialInDeg p.nodes) n.id).getD 0 == 0) []
          ⊆ p.nodes := fun x hx => hMem x hx
      exact (hknodup.subperm hsub).perm_of_length_le (le_of_eq hlen.symm)
    · intro i j hi hj hdep
      set E := kahnLoop p.nodes (2 * p.nodes.length + 1) (initialInDeg p.nodes)
        (p.nodes.filter fun n => (lookupInt (initialInDeg p.nodes) n.id).getD 0 == 0) []
        with hE
      have hdecomp : E = E.take j ++ E.get ⟨j, hj⟩ :: E.drop (j+1) := by
        rw [List.get_eq_getElem]
        conv_lhs => rw [← List.take_append_drop j E]
        rw [List.drop_eq_getElem_cons hj]
      have hd := hOrd (E.take j) (E.get ⟨j, hj⟩) (E.drop (j+1)) hdecomp
        (E.get ⟨i, hi⟩).id hdep
      obtain ⟨y, hy, hyid⟩ := List.mem_map.mp hd
      obtain ⟨m, hmy⟩ := List.mem_iff_get.mp hy
      have hmj : (m : Nat) < j := lt_of_lt_of_le m.isLt (by
        rw [List.length_take]
        exact min_le_left _ _)
      have hmE : (m : Nat) < E.length := lt_of_lt_of_le m.isLt (by
        rw [List.length_take]
        exact min_le_right _ _)
      have hgm : (E.take j).get m = E.get ⟨m, hmE⟩ := by
        simp [List.get_eq_getElem, List.getElem_take]
      have hid : (E.get ⟨(m : Nat), hmE⟩).id = (E.get ⟨i, hi⟩).id := by
        rw [← hgm, hmy, hyid]
      have := nodup_id_pos_eq E hNodup (m : Nat) i hmE hi hid
      omega
    · intro hnodeps
      have hQall : (p.nodes.filter fun n =>
          (lookupInt (initialInDeg p.nodes) n.id).getD 0 == 0) = p.nodes := by
        rw [List.filter_eq_self]
        intro n hn
        rw [lookupInt_initialInDeg p.nodes n hn hnd]
        simp [hnodeps n hn]
      rw [hQall, kahnLoop_nodeps p.nodes hnodeps p.nodes (2 * p.nodes.length + 1)
        (initialInDeg p.nodes) [] (by omega), List.nil_append]
  · rw [hDef, if_neg hlen] at hsome
    simp at hsome

/-- A concrete two-node plan (`b` depends on `a`) used to witness C1. -/
def c1wPlan : DAGPlan :=
  { nodes := [{ id := "a", name := "A", tool := "t" },
              { id := "b", name := "B", tool := "t", dependencies := ["a"] }] }

theorem C1_topological_sort_witness :
    c1wPlan.validate = [] ∧
    (∃ l, c1wPlan.topologicalSort = some l ∧ l.Perm c1wPlan.nodes ∧
      (∀ (i j : Nat) (hi : i < l.length) (hj : j < l.length),
        (l.get ⟨i, hi⟩).id ∈ (l.get ⟨j, hj⟩).dependencies → i < j) ∧
      ((∀ n ∈ c1wPlan.nodes, n.dependencies = []) → l = c1wPlan.nodes)) :=
  ⟨by decide, C1_topological_sort c1wPlan (by decide)⟩

/-! ## Parameter-reference resolution (`DAGExecutor._resolve_params`) -/

/-- A regex word character (`\w`, restricted to its ASCII range, which
covers the node ids the generator emits). -/
def isWordChar (c : Char) : Bool := c.isAlphanum || c = Char.ofNat 95

/-- Try to match the regex `\$\{(\w+)\}` at the head of the character
list; greedy `\w+` followed by the closing brace is exact here because
word characters and the closing brace are disjoint. -/
def tryRef : List Char → Option (String × List Char)
  | c1 :: c2 :: rest =>
      if c1 = Char.ofNat 36 ∧ c2 = lbrace then
        if (rest.span isWordChar).1 ≠ [] then
          match (rest.span isWordChar).2 with
          | c3 :: r3 => if c3 = rbrace then some (String.mk (rest.span isWordChar).1, r3) else none
          | [] => none
        else none
      else none
  | _ => none

/-- The raw text `${rid}` as characters. -/
def refText (rid : String) : List Char :=
  Char.ofNat 36 :: lbrace :: rid.data ++ [rbrace]

/-- The raw text `${rid}` as a string. -/
def refStr (rid : String) : String := String.mk (refText rid)

/-- The left-to-right scan of `re.sub`; at a match the replacement is
`str(self._results.get(ref_id, match.group(0)))`.  Fuel-driven: every
step consumes at least one character, so `cs.length` fuel suffices. -/
def substF (results : List (String × Value)) : Nat → List Char → List Char
  | 0, cs => cs
  | fuel + 1, cs =>
      match tryRef cs with
      | some (rid, rest) =>
          (match dictGet results rid with
           | some v => (pyStr v).data
           | none => refText rid) ++ substF results fuel rest
      | none =>
          match cs with
          | [] => []
          | c :: t => c :: substF results fuel t

/-- `re.sub(r"\$\{(\w+)\}", replace_ref, value)`. -/
def pySub (results : List (String × Value)) (s : String) : String :=
  String.mk (substF results s.data.length s.data)

/-- `DAGExecutor._resolve_params`: only string values are rewritten. -/
def resolveParams (results : List (String × Value)) (params : Params) : Params :=
  params.map fun kv =>
    match kv.2 with
    | .vstr s => (kv.1, .vstr (pySub results s))
    | _ => kv

lemma substF_nil (results : List (String × Value)) : ∀ f, substF results f [] = [] := by
  intro f
  cases f <;> rfl

lemma isWordChar_rbrace : isWordChar rbrace = false := by decide

lemma takeWhile_all_append (p : Char → Bool) (w : List Char) (c : Char) (r : List Char)
    (hw : ∀ x ∈ w, p x = true) (hc : p c = false) :
    (w ++ c :: r).takeWhile p = w ∧ (w ++ c :: r).dropWhile p = c :: r := by
  induction w with
  | nil => simp [List.takeWhile_cons, List.dropWhile_cons, hc]
  | cons x t ih =>
      have hx : p x = true := hw x (by simp)
      have iht := ih (fun y hy => hw y (List.mem_cons_of_mem _ hy))
      simp [List.takeWhile_cons, List.dropWhile_cons, hx, iht.1, iht.2]

lemma refText_append (rid : String) (suffix : List Char) :
    refText rid ++ suffix = Char.ofNat 36 :: lbrace :: (rid.data ++ rbrace :: suffix) := by
  simp [refText]

lemma tryRef_match (rid : String) (hw : rid.data ≠ [])
    (hall : ∀ c ∈ rid.data, isWordChar c = true) (suffix : List Char) :
    tryRef (refText rid ++ suffix) = some (rid, suffix) := by
  rw [refText_append]
  have hspan := List.span_eq_take_drop isWordChar (rid.data ++ rbrace :: suffix)
  have htd := takeWhile_all_append isWordChar rid.data rbrace suffix hall isWordChar_rbrace
  simp only [tryRef, hspan, htd.1, htd.2]
  simp [hw]

lemma tryRef_none_of_ne_dollar (c : Char) (t : List Char) (hc : c ≠ Char.ofNat 36) :
    tryRef (c :: t) = none := by
  cases t with
  | nil => rfl
  | cons c2 r => simp only [tryRef]
                 rw [if_neg (fun hh => hc hh.1)]

lemma tryRef_len (cs : List Char) (rid : String) (rest : List Char)
    (h : tryRef cs = some (rid, rest)) : rest.length + 3 ≤ cs.length := by
  cases cs with
  | nil => simp [tryRef] at h
  | cons c1 t =>
      cases t with
      | nil => simp [tryRef] at h
      | cons c2 rest0 =>
          simp only [tryRef] at h
          split at h
          · split at h
            · rcases hsp2 : (rest0.span isWordChar).2 with _ | ⟨c3, r3⟩
              · rw [hsp2] at h
                cases h
              · rw [hsp2] at h
                split at h
                · rename_i c3a r3a heq
                  obtain ⟨rfl, rfl⟩ := List.cons.inj heq
                  split at h
                  · obtain ⟨h1, h2⟩ := Prod.mk.inj (Option.some.inj h)
                    have hlen : (rest0.span isWordChar).1.length
                        + (rest0.span isWordChar).2.length = rest0.length := by
                      rw [List.span_eq_take_drop]
                      have hcat := congrArg List.length
                        (List.takeWhile_append_dropWhile isWordChar rest0)
                      rw [List.length_append] at hcat
                      exact hcat
                    have hl2 : (rest0.span isWordChar).2.length = r3.length + 1 := by
                      rw [hsp2]
                      simp
                    subst h2
                    simp only [List.length_cons]
                    omega
                  · cases h
                · cases h
            · cases h
          · cases h

lemma substF_mono (results : List (String × Value)) :
    ∀ (fuel₁ : Nat) (cs : List Char) (fuel₂ : Nat), cs.length ≤ fuel₁ → cs.length ≤ fuel₂ →
      substF results fuel₁ cs = substF results fuel₂ cs := by
  intro fuel₁
  induction fuel₁ with
  | zero =>
      intro cs fuel₂ h1 _
      rw [List.length_eq_zero.mp (Nat.le_zero.mp h1)]
      rw [substF_nil, substF_nil]
  | succ f ih =>
      intro cs fuel₂ h1 h2
      cases fuel₂ with
      | zero =>
          rw [List.length_eq_zero.mp (Nat.le_zero.mp h2)]
          rw [substF_nil, substF_nil]
      | succ f2 =>
          cases htr : tryRef cs with
          | some pr =>
              obtain ⟨rid, rest⟩ := pr
              have hlen := tryRef_len cs rid rest htr
              simp only [substF, htr]
              rw [ih rest f2 (by omega) (by omega)]
          | none =>
              cases cs with
              | nil => rw [substF_nil, substF_nil]
              | cons c t =>
                  simp only [substF, htr]
                  simp only [List.length_cons] at h1 h2
                  rw [ih t f2 (by omega) (by omega)]

/-- One textual substitution step inside a larger string: a reference
occurrence preceded by dollar-free text is replaced in place, and the
scan continues on the suffix. -/
lemma substF_append_ref (results : List (String × Value)) (pre : List Char)
    (hpre : ∀ c ∈ pre, c ≠ Char.ofNat 36) (rid : String) (hw : rid.data ≠ [])
    (hall : ∀ c ∈ rid.data, isWordChar c = true) (suf : List Char) :
    ∀ fuel, (pre ++ refText rid ++ suf).length ≤ fuel →
    substF results fuel (pre ++ refText rid ++ suf)
      = pre ++ (match dictGet results rid with
                | some v => (pyStr v).data
                | none => refText rid) ++ substF results suf.length suf := by
  induction pre with
  | nil =>
      intro fuel hfuel
      simp only [List.nil_append] at hfuel ⊢
      have hrt : (refText rid ++ suf).length = rid.data.length + 3 + suf.length := by
        simp [refText]
        omega
      cases fuel with
      | zero =>
          exfalso
          omega
      | succ f =>
          simp only [substF, tryRef_match rid hw hall suf]
          rw [substF_mono results f suf suf.length (by omega) (le_refl _)]
  | cons c pre' ih =>
      intro fuel hfuel
      have hc : c ≠ Char.ofNat 36 := hpre c (by simp)
      cases fuel with
      | zero => simp at hfuel
      | succ f =>
          have htr : tryRef (c :: (pre' ++ refText rid ++ suf)) = none :=
            tryRef_none_of_ne_dollar c _ hc
          have ihh := ih (fun x hx => hpre x (List.mem_cons_of_mem _ hx)) f (by
            simp only [List.cons_append, List.length_cons] at hfuel
            omega)
          simp only [List.cons_append, substF, htr, ihh]

/-- C3 (claim as stated) is false on the code: `_resolve_params` never
substitutes the result *object* for an exact `${id}` match — `re.sub`
always yields a string, here `"5"` rather than the integer `5` — and a
reference to an unknown node id is left in place as literal text instead
of failing the node (resolution is total and never raises). -/
theorem C3_counterexample :
    resolveParams [("a", Value.vint 5)] [("x", Value.vstr "$\x7ba\x7d")]
      = [("x", Value.vstr "5")] ∧
    Value.vstr "5" ≠ Value.vint 5 ∧
    resolveParams [] [("x", Value.vstr "$\x7bmissing\x7d")]
      = [("x", Value.vstr "$\x7bmissing\x7d")] :=
  ⟨by decide, by decide, by decide⟩

/-- C3 (amended): during node dispatch, every occurrence of `${node_id}`
inside a string parameter — whether the whole string or embedded in a
larger one — is textually substituted with the string form of that
node's recorded result; a reference to an unknown node id is left
unchanged as literal text (never a failure); non-string values pass
through untouched. -/
theorem C3_resolve_params (results : List (String × Value)) :
    (∀ rid : String, rid.data ≠ [] → (∀ c ∈ rid.data, isWordChar c = true) →
      pySub results (refStr rid)
        = (match dictGet results rid with
           | some v => pyStr v
           | none => refStr rid)) ∧
    (∀ pre : String, (∀ c ∈ pre.data, c ≠ Char.ofNat 36) →
     ∀ rid : String, rid.data ≠ [] → (∀ c ∈ rid.data, isWordChar c = true) →
     ∀ suf : String,
      pySub results (pre ++ refStr rid ++ suf)
        = pre ++ (match dictGet results rid with
                  | some v => pyStr v
                  | none => refStr rid) ++ pySub results suf) ∧
    (∀ (params : Params) (kv : String × Value), kv ∈ params →
      (∀ s, kv.2 ≠ Value.vstr s) → kv ∈ resolveParams results params) := by
  refine ⟨?_, ?_, ?_⟩
  · intro rid hw hall
    have h := substF_append_ref results [] (by simp) rid hw hall []
      (refText rid).length (by simp)
    simp only [List.nil_append, List.append_nil, substF_nil] at h
    unfold pySub refStr
    simp only [List.append_nil]
    rw [h]
    rcases dictGet results rid with _ | v
    · rfl
    · rfl
  · intro pre hpre rid hw hall suf
    have hdata : (pre ++ refStr rid ++ suf).data
        = pre.data ++ refText rid ++ suf.data := by
      rw [String.data_append, String.data_append]
      rfl
    have h := substF_append_ref results pre.data hpre rid hw hall suf.data
      (pre.data ++ refText rid ++ suf.data).length (le_refl _)
    apply String.ext
    unfold pySub
    rw [hdata]
    simp only [h]
    rw [String.data_append, String.data_append]
    rcases dictGet results rid with _ | v
    · rfl
    · rfl
  · intro params kv hkv hns
    unfold resolveParams
    have : (fun kv : String × Value =>
        match kv.2 with
        | .vstr s => (kv.1, Value.vstr (pySub results s))
        | _ => kv) kv = kv := by
      rcases hv : kv.2 with s | n | b | _ | m
      · exact absurd hv (hns s)
      all_goals simp [hv]
    rw [← this]
    exact List.mem_map_of_mem _ hkv

theorem C3_resolve_params_witness :
    ("a" : String).data ≠ [] ∧ (∀ c ∈ ("a" : String).data, isWordChar c = true) ∧
    pySub [("a", Value.vint 5)] (refStr "a")
      = (match dictGet [("a", Value.vint 5)] "a" with
         | some v => pyStr v
         | none => refStr "a") :=
  ⟨by decide, by decide, (C3_resolve_params [("a", Value.vint 5)]).1 "a" (by decide) (by decide)⟩

/-! ## DAG executor (`agent/executor.py`)

The tool functions themselves are external collaborators; they appear as
an oracle `invoke : String → Params → Except String Value` giving the
tool result or the exception message.  Wall-clock `execution_time` is
modelled as 0.  The thread-parallel batch of `aexecute` is modelled as
sequential processing of the ready list (each node only writes its own
node object and its own result key, so for every oracle the reachable
final states agree). -/

/-- Tool names registered in `DAGExecutor._build_tool_map`. -/
def toolMapNames : List String :=
  ["execute_sql", "query_with_duckdb", "query_parquet", "execute_python_safe",
   "analyze_dataframe", "statistical_analysis", "analyze_large_dataset",
   "train_model", "predict", "evaluate_model", "create_graph", "graph_analysis"]

/-- Assignment into the `_results` dict. -/
def setVal : List (String × Value) → String → Value → List (String × Value)
  | [], k, v => [(k, v)]
  | kv :: t, k, v => if kv.1 = k then (k, v) :: t else kv :: setVal t k v

/-- `DAGExecutor._execute_node` / `_aexecute_node`: run one node,
producing its updated node object and the updated results dict. -/
def executeNode (invoke : String → Params → Except String Value)
    (results : List (String × Value)) (n : DAGNode) : DAGNode × List (String × Value) :=
  match (if n.tool ∈ toolMapNames then invoke n.tool (resolveParams results n.params)
         else .error ("未知的工具: " ++ n.tool) : Except String Value) with
  | .ok r =>
      ({ n with status := .completed, result := some r, executionTime := 0 },
       setVal results n.id r)
  | .error e =>
      ({ n with status := .failed, error := some e, executionTime := 0 },
       setVal results n.id (.verr e))

/-- The `for node in sorted_nodes` loop of `execute`, breaking after the
first failure; `upd` accumulates the per-node mutations. -/
def execLoop (invoke : String → Params → Except String Value) :
    List DAGNode → List (String × Value) → List (String × DAGNode) →
      List (String × Value) × List (String × DAGNode)
  | [], results, upd => (results, upd)
  | n :: rest, results, upd =>
      let s := executeNode invoke results n
      if s.1.status = .failed then (s.2, upd ++ [(n.id, s.1)])
      else execLoop invoke rest s.2 (upd ++ [(n.id, s.1)])

/-- Lookup of a recorded node mutation. -/
def findUpd : List (String × DAGNode) → String → Option DAGNode
  | [], _ => none
  | kv :: t, k => if kv.1 = k then some kv.2 else findUpd t k

/-- `DAGExecutor.execute`: topological sort, then sequential execution
with break-on-failure.  A cycle yields the `{"error": ...}` map.  The
second component is the plan's node list with mutations applied. -/
def executeSync (invoke : String → Params → Except String Value) (p : DAGPlan) :
    List (String × Value) × List DAGNode :=
  match p.topologicalSort with
  | none => ([("error", .vstr "DAG存在循环依赖")], p.nodes)
  | some sorted =>
      let out := execLoop invoke sorted [] []
      (out.1, p.nodes.map fun n => (findUpd out.2 n.id).getD n)

/-- The mutable state of `aexecute`: the node objects, the results dict
and the `completed_nodes` set (kept as an insertion-ordered list). -/
structure ExecState where
  nodes : List DAGNode
  results : List (String × Value)
  completed : List String

/-- `DAGNode.is_ready`. -/
def isReady (n : DAGNode) (completed : List String) : Bool :=
  n.dependencies.all fun d => completed.contains d

/-- In-place mutation of the node with the given id. -/
def updNodes (nodes : List DAGNode) (m : DAGNode) : List DAGNode :=
  nodes.map fun x => if x.id = m.id then m else x

/-- One batch of `aexecute`: execute every ready node, record completed
ids. -/
def runBatch (invoke : String → Params → Except String Value) :
    List DAGNode → ExecState → ExecState
  | [], st => st
  | n :: rest, st =>
      let s := executeNode invoke st.results n
      runBatch invoke rest
        { nodes := updNodes st.nodes s.1
          results := s.2
          completed := if s.1.status = .completed then st.completed ++ [n.id] else st.completed }

/-- The `while True` loop of `aexecute`: compute the ready set, run the
batch, stop on any failure or when nothing is ready (fuel-driven; each
productive iteration retires at least one pending node). -/
def aexecLoop (invoke : String → Params → Except String Value) :
    Nat → ExecState → List DAGNode × List (String × Value)
  | 0, st => (st.nodes, st.results)
  | fuel + 1, st =>
      let ready := st.nodes.filter fun n => n.status == .pending && isReady n st.completed
      if ready.isEmpty then (st.nodes, st.results)
      else
        let st2 := runBatch invoke ready st
        if st2.nodes.any (fun n => n.status == .failed) then (st2.nodes, st2.results)
        else aexecLoop invoke fuel st2

/-- `DAGExecutor.aexecute`. -/
def executeAsync (invoke : String → Params → Except String Value) (p : DAGPlan) :
    List DAGNode × List (String × Value) :=
  aexecLoop invoke (p.nodes.length + 1) ⟨p.nodes, [], []⟩

/-- `a` directly depends on `b` in the plan. -/
def DependsOn (nodes : List DAGNode) (a b : String) : Prop :=
  ∃ n ∈ nodes, n.id = a ∧ b ∈ n.dependencies

/-- The execution-invariant part of a node: its id and dependencies. -/
def skel (n : DAGNode) : String × List String := (n.id, n.dependencies)

lemma dictGet_setVal_self (r : List (String × Value)) (k : String) (v : Value) :
    dictGet (setVal r k v) k = some v := by
  induction r with
  | nil => simp [setVal, dictGet]
  | cons kv t ih =>
      by_cases h : kv.1 = k
      · simp [setVal, dictGet, h]
      · simp [setVal, dictGet, h, ih]

lemma dictGet_setVal_ne (r : List (String × Value)) (k k' : String) (v : Value)
    (h : k' ≠ k) : dictGet (setVal r k v) k' = dictGet r k' := by
  induction r with
  | nil => simp [setVal, dictGet, Ne.symm h]
  | cons kv t ih =>
      by_cases hk : kv.1 = k
      · have hk' : ¬ kv.1 = k' := fun hh => h (hh ▸ hk ▸ rfl)
        simp [setVal, dictGet, hk, Ne.symm h, hk']
      · by_cases hk' : kv.1 = k'
        · simp [setVal, dictGet, hk, hk', h]
        · simp [setVal, dictGet, hk, hk', ih]

lemma findUpd_some (l : List (String × DAGNode)) (k : String) (m : DAGNode)
    (h : findUpd l k = some m) : ∃ kv ∈ l, kv.1 = k ∧ kv.2 = m := by
  induction l with
  | nil => simp [findUpd] at h
  | cons kv t ih =>
      by_cases hk : kv.1 = k
      · refine ⟨kv, by simp, hk, ?_⟩
        simp [findUpd, hk] at h
        exact h
      · simp only [findUpd, if_neg hk] at h
        obtain ⟨kv2, hm, hp⟩ := ih h
        exact ⟨kv2, List.mem_cons_of_mem _ hm, hp⟩

lemma findUpd_of_mem_nodup (l : List (String × DAGNode)) (kv : String × DAGNode)
    (hnd : (l.map Prod.fst).Nodup) (hm : kv ∈ l) : findUpd l kv.1 = some kv.2 := by
  induction l with
  | nil => cases hm
  | cons hd t ih =>
      simp only [List.map_cons, List.nodup_cons] at hnd
      rcases List.mem_cons.mp hm with rfl | hmt
      · simp [findUpd]
      · have hne : hd.1 ≠ kv.1 := by
          intro hh
          exact hnd.1 (hh ▸ List.mem_map_of_mem Prod.fst hmt)
        simp [findUpd, hne, ih hnd.2 hmt]

/-- Behaviour of one node execution: the id and dependencies are kept,
the final status is terminal, a failure records the message in both the
node and the results map, and other result keys are untouched. -/
lemma executeNode_spec (invoke : String → Params → Except String Value)
    (results : List (String × Value)) (n : DAGNode) :
    (executeNode invoke results n).1.id = n.id ∧
    (executeNode invoke results n).1.dependencies = n.dependencies ∧
    ((executeNode invoke results n).1.status = .completed ∨
      (executeNode invoke results n).1.status = .failed) ∧
    ((executeNode invoke results n).1.status = .failed →
      ∃ e, (executeNode invoke results n).1.error = some e ∧
        dictGet (executeNode invoke results n).2 n.id = some (.verr e)) ∧
    (∀ k, k ≠ n.id → dictGet (executeNode invoke results n).2 k = dictGet results k) := by
  rcases h : (if n.tool ∈ toolMapNames then invoke n.tool (resolveParams results n.params)
      else .error ("未知的工具: " ++ n.tool) : Except String Value) with e | r
  · refine ⟨by simp [executeNode, h], by simp [executeNode, h], ?_, ?_, ?_⟩
    · right
      simp [executeNode, h]
    · intro _
      refine ⟨e, by simp [executeNode, h], ?_⟩
      simp only [executeNode, h]
      exact dictGet_setVal_self results n.id (.verr e)
    · intro k hk
      simp only [executeNode, h]
      exact dictGet_setVal_ne results n.id k (.verr e) hk
  · refine ⟨by simp [executeNode, h], by simp [executeNode, h], ?_, ?_, ?_⟩
    · left
      simp [executeNode, h]
    · intro hf
      simp [executeNode, h] at hf
    · intro k hk
      simp only [executeNode, h]
      exact dictGet_setVal_ne results n.id k r hk

/-- Reusable consequences of a successful validation: the sort succeeds
and its output is a duplicate-free permutation of the plan listing every
node after its dependencies. -/
lemma topo_props (p : DAGPlan) (h : p.validate = []) :
    ∃ sorted, p.topologicalSort = some sorted ∧ sorted.Perm p.nodes ∧
      (sorted.map (·.id)).Nodup ∧
      (∀ pre x post, sorted = pre ++ x :: post →
        ∀ d ∈ x.dependencies, d ∈ pre.map (·.id)) := by
  obtain ⟨hnd, hcl, hsome⟩ := validate_parts p h
  obtain ⟨hNodup, hMem, hOrd⟩ :=
    kahnLoop_out p.nodes hnd (2 * p.nodes.length + 1) _ _ _ (kahnInv_init p.nodes hnd)
  have hDef : p.topologicalSort =
      if (kahnLoop p.nodes (2 * p.nodes.length + 1) (initialInDeg p.nodes)
            (p.nodes.filter fun n => (lookupInt (initialInDeg p.nodes) n.id).getD 0 == 0)
            []).length = p.nodes.length
      then some (kahnLoop p.nodes (2 * p.nodes.length + 1) (initialInDeg p.nodes)
            (p.nodes.filter fun n => (lookupInt (initialInDeg p.nodes) n.id).getD 0 == 0) [])
      else none := rfl
  by_cases hlen : (kahnLoop p.nodes (2 * p.nodes.length + 1) (initialInDeg p.nodes)
      (p.nodes.filter fun n => (lookupInt (initialInDeg p.nodes) n.id).getD 0 == 0)
      []).length = p.nodes.length
  · refine ⟨_, by rw [hDef, if_pos hlen], ?_, hNodup, hOrd⟩
    have hknodup := List.Nodup.of_map _ hNodup
    exact (hknodup.subperm (fun x hx => hMem x hx)).perm_of_length_le (le_of_eq hlen.symm)
  · rw [hDef, if_neg hlen] at hsome
    simp at hsome

/-- Core invariant of the sequential `execute` loop: the processed
entries form a prefix of the sorted order, carry the node skeletons,
are never left pending, record errors, and have all of their
dependencies among completed processed entries. -/
lemma execLoop_inv (invoke : String → Params → Except String Value)
    (sorted : List DAGNode)
    (hOrd : ∀ pre x post, sorted = pre ++ x :: post →
      ∀ d ∈ x.dependencies, d ∈ pre.map (·.id)) :
    ∀ (rest done : List DAGNode) (results : List (String × Value))
      (upd : List (String × DAGNode)),
      sorted = done ++ rest →
      upd.map Prod.fst = done.map (·.id) →
      (∀ kv ∈ upd, kv.2.id = kv.1 ∧ kv.2.status = .completed ∧
        (∃ o ∈ sorted, o.id = kv.1 ∧ kv.2.dependencies = o.dependencies)) →
      (∀ kv ∈ upd, ∀ d ∈ kv.2.dependencies,
        ∃ kv2 ∈ upd, kv2.1 = d ∧ kv2.2.status = .completed) →
      (∃ done2 rest2, sorted = done2 ++ rest2 ∧
        (execLoop invoke rest results upd).2.map Prod.fst = done2.map (·.id)) ∧
      (∀ kv ∈ (execLoop invoke rest results upd).2,
        kv.2.id = kv.1 ∧ kv.2.status ≠ .pending ∧
        (∃ o ∈ sorted, o.id = kv.1 ∧ kv.2.dependencies = o.dependencies)) ∧
      (∀ kv ∈ (execLoop invoke rest results upd).2, kv.2.status = .failed →
        ∃ e, kv.2.error = some e ∧
          dictGet (execLoop invoke rest results upd).1 kv.1 = some (.verr e)) ∧
      (∀ kv ∈ (execLoop invoke rest results upd).2, ∀ d ∈ kv.2.dependencies,
        ∃ kv2 ∈ (execLoop invoke rest results upd).2,
          kv2.1 = d ∧ kv2.2.status = .completed) := by
  intro rest
  induction rest with
  | nil =>
      intro done results upd hsplit hkeys hentries hdeps
      refine ⟨⟨done, [], hsplit, hkeys⟩, ?_, ?_, hdeps⟩
      · intro kv hkv
        obtain ⟨h1, h2, h3⟩ := hentries kv hkv
        exact ⟨h1, by simp [h2], h3⟩
      · intro kv hkv hf
        rw [(hentries kv hkv).2.1] at hf
        cases hf
  | cons n rest' ih =>
      intro done results upd hsplit hkeys hentries hdeps
      obtain ⟨hid, hdep, hterm, hfail, hother⟩ := executeNode_spec invoke results n
      have hndep : ∀ d ∈ n.dependencies, ∃ kv2 ∈ upd, kv2.1 = d ∧ kv2.2.status = .completed := by
        intro d hd
        have hmemd : d ∈ done.map (·.id) := hOrd done n rest' hsplit d hd
        rw [← hkeys] at hmemd
        obtain ⟨kv2, hkv2, hkv2d⟩ := List.mem_map.mp hmemd
        exact ⟨kv2, hkv2, hkv2d, (hentries kv2 hkv2).2.1⟩
      by_cases hf : (executeNode invoke results n).1.status = .failed
      · have hout : execLoop invoke (n :: rest') results upd
            = ((executeNode invoke results n).2, upd ++ [(n.id, (executeNode invoke results n).1)]) := by
          simp only [execLoop, if_pos hf]
        rw [hout]
        refine ⟨⟨done ++ [n], rest', by rw [hsplit]; simp, by simp [hkeys]⟩, ?_, ?_, ?_⟩
        · intro kv hkv
          rcases List.mem_append.mp hkv with hold | hnew
          · obtain ⟨h1, h2, h3⟩ := hentries kv hold
            exact ⟨h1, by simp [h2], h3⟩
          · rw [List.mem_singleton.mp hnew]
            refine ⟨hid, by simp [hf], n, ?_, rfl, hdep⟩
            rw [hsplit]
            simp
        · intro kv hkv hkf
          rcases List.mem_append.mp hkv with hold | hnew
          · rw [(hentries kv hold).2.1] at hkf
            cases hkf
          · rw [List.mem_singleton.mp hnew]
            obtain ⟨e, he1, he2⟩ := hfail hf
            exact ⟨e, he1, he2⟩
        · intro kv hkv d hd
          rcases List.mem_append.mp hkv with hold | hnew
          · obtain ⟨kv2, hm, hp⟩ := hdeps kv hold d hd
            exact ⟨kv2, List.mem_append_left _ hm, hp⟩
          · rw [List.mem_singleton.mp hnew] at hd
            rw [hdep] at hd
            obtain ⟨kv2, hm, hp⟩ := hndep d hd
            exact ⟨kv2, List.mem_append_left _ hm, hp⟩
      · have hcomp : (executeNode invoke results n).1.status = .completed := by
          rcases hterm with h | h
          · exact h
          · exact absurd h hf
        have hout : execLoop invoke (n :: rest') results upd
            = execLoop invoke rest' (executeNode invoke results n).2
                (upd ++ [(n.id, (executeNode invoke results n).1)]) := by
          simp only [execLoop, if_neg hf]
        rw [hout]
        refine ih (done ++ [n]) (executeNode invoke results n).2 _
          (by rw [hsplit]; simp) (by simp [hkeys]) ?_ ?_
        · intro kv hkv
          rcases List.mem_append.mp hkv with hold | hnew
          · exact hentries kv hold
          · rw [List.mem_singleton.mp hnew]
            refine ⟨hid, hcomp, n, ?_, rfl, hdep⟩
            rw [hsplit]
            simp
        · intro kv hkv d hd
          rcases List.mem_append.mp hkv with hold | hnew
          · obtain ⟨kv2, hm, hp⟩ := hdeps kv hold d hd
            exact ⟨kv2, List.mem_append_left _ hm, hp⟩
          · rw [List.mem_singleton.mp hnew] at hd
            rw [hdep] at hd
            obtain ⟨kv2, hm, hp⟩ := hndep d hd
            exact ⟨kv2, List.mem_append_left _ hm, hp⟩

/-- Final-state facts of the sequential `execute`: node skeletons are
preserved, every non-pending node has all dependencies completed, and a
failed node's message is in the result map. -/
lemma executeSync_facts (invoke : String → Params → Except String Value) (p : DAGPlan)
    (hv : p.validate = []) (hpending : ∀ n ∈ p.nodes, n.status = .pending) :
    ((executeSync invoke p).2.map skel = p.nodes.map skel) ∧
    (∀ n ∈ (executeSync invoke p).2, n.status ≠ .pending → ∀ d ∈ n.dependencies,
      ∃ m ∈ (executeSync invoke p).2, m.id = d ∧ m.status = .completed) ∧
    (∀ f ∈ (executeSync invoke p).2, f.status = .failed →
      ∃ e, f.error = some e ∧ dictGet (executeSync invoke p).1 f.id = some (.verr e)) := by
  obtain ⟨hndP, _, _⟩ := validate_parts p hv
  obtain ⟨sorted, hTopo, hPerm, hndS, hOrd⟩ := topo_props p hv
  have hdef : executeSync invoke p = ((execLoop invoke sorted [] []).1,
      p.nodes.map fun n => (findUpd (execLoop invoke sorted [] []).2 n.id).getD n) := by
    unfold executeSync
    rw [hTopo]
  obtain ⟨⟨done2, rest2, hsplit2, hkeys2⟩, hB, hC, hD⟩ :=
    execLoop_inv invoke sorted hOrd sorted [] [] []
      (by simp) (by simp) (by simp) (by simp)
  have keysNodup : ((execLoop invoke sorted [] []).2.map Prod.fst).Nodup := by
    rw [hkeys2]
    refine hndS.sublist ?_
    rw [hsplit2, List.map_append]
    exact List.sublist_append_left _ _
  have hskelPt : ∀ n ∈ p.nodes,
      skel ((findUpd (execLoop invoke sorted [] []).2 n.id).getD n) = skel n := by
    intro n hn
    cases hfu : findUpd (execLoop invoke sorted [] []).2 n.id with
    | none => rfl
    | some m =>
        obtain ⟨kv, hkv, hk1, hk2⟩ := findUpd_some _ _ _ hfu
        obtain ⟨hbid, _, o, ho, hoid, hodep⟩ := hB kv hkv
        have ho' : o ∈ p.nodes := hPerm.subset ho
        have : o = n := id_inj hndP ho' hn (by rw [hoid, hk1])
        subst this
        simp only [Option.getD_some, skel, ← hk2, hbid, hk1, hodep]
  refine ⟨?_, ?_, ?_⟩
  · rw [hdef]
    simp only [List.map_map]
    exact List.map_congr_left (fun n hn => hskelPt n hn)
  · rw [hdef]
    intro n' hmem hnp d hd
    simp only [List.mem_map] at hmem
    obtain ⟨n, hn, hfn⟩ := hmem
    cases hfu : findUpd (execLoop invoke sorted [] []).2 n.id with
    | none =>
        rw [hfu] at hfn
        simp at hfn
        exact absurd (hfn ▸ hpending n hn) hnp
    | some m =>
        rw [hfu] at hfn
        simp at hfn
        obtain ⟨kv, hkv, hk1, hk2⟩ := findUpd_some _ _ _ hfu
        have hdm : d ∈ kv.2.dependencies := by rw [hk2, hfn]; exact hd
        obtain ⟨kv2, hkv2, hkv21, hkv2c⟩ := hD kv hkv d hdm
        have hdid : d ∈ done2.map (·.id) := by
          rw [← hkeys2]
          exact hkv21 ▸ List.mem_map_of_mem Prod.fst hkv2
        obtain ⟨od, hod, hodid⟩ := List.mem_map.mp hdid
        have hodS : od ∈ sorted := by
          rw [hsplit2]
          exact List.mem_append_left _ hod
        have hodP : od ∈ p.nodes := hPerm.subset hodS
        have hfind : findUpd (execLoop invoke sorted [] []).2 od.id = some kv2.2 := by
          rw [hodid, ← hkv21]
          exact findUpd_of_mem_nodup _ kv2 keysNodup hkv2
        refine ⟨kv2.2, ?_, ?_, hkv2c⟩
        · refine List.mem_map.mpr ⟨od, hodP, ?_⟩
          rw [hfind]
          rfl
        · rw [(hB kv2 hkv2).1, hkv21]
  · rw [hdef]
    intro f hmem hf
    simp only [List.mem_map] at hmem
    obtain ⟨n, hn, hfn⟩ := hmem
    cases hfu : findUpd (execLoop invoke sorted [] []).2 n.id with
    | none =>
        rw [hfu] at hfn
        simp at hfn
        rw [← hfn, hpending n hn] at hf
        cases hf
    | some m =>
        rw [hfu] at hfn
        simp at hfn
        obtain ⟨kv, hkv, hk1, hk2⟩ := findUpd_some _ _ _ hfu
        have hff : kv.2.status = .failed := by rw [hk2, hfn]; exact hf
        obtain ⟨e, he1, he2⟩ := hC kv hkv hff
        refine ⟨e, ?_, ?_⟩
        · rw [← hfn, ← hk2]
          exact he1
        · have : f.id = kv.1 := by rw [← hfn, ← hk2, (hB kv hkv).1]
          rw [this]
          exact he2

/-- The invariant of the `aexecute` loop state. -/
structure AsyncInv (orig : List DAGNode) (st : ExecState) : Prop where
  skel_eq : st.nodes.map skel = orig.map skel
  depsDone : ∀ n ∈ st.nodes, n.status ≠ .pending → ∀ d ∈ n.dependencies,
    ∃ m ∈ st.nodes, m.id = d ∧ m.status = .completed
  compWitness : ∀ cid ∈ st.completed, ∃ m ∈ st.nodes, m.id = cid ∧ m.status = .completed
  errRecorded : ∀ n ∈ st.nodes, n.status = .failed → ∃ e, n.error = some e ∧
    dictGet st.results n.id = some (.verr e)

lemma skel_eq_ids {nodes orig : List DAGNode} (h : nodes.map skel = orig.map skel) :
    nodes.map (·.id) = orig.map (·.id) := by
  have := congrArg (List.map Prod.fst) h
  simpa [List.map_map, skel, Function.comp] using this

/-- Executing one ready, pending node preserves the `aexecute`
invariant. -/
lemma asyncInv_step (orig : List DAGNode) (hnd : (orig.map (·.id)).Nodup)
    (invoke : String → Params → Except String Value) (st : ExecState)
    (inv : AsyncInv orig st) (n : DAGNode) (hn : n ∈ st.nodes) (hp : n.status = .pending)
    (hrdy : ∀ d ∈ n.dependencies, ∃ m ∈ st.nodes, m.id = d ∧ m.status = .completed) :
    AsyncInv orig
      { nodes := updNodes st.nodes (executeNode invoke st.results n).1
        results := (executeNode invoke st.results n).2
        completed := if (executeNode invoke st.results n).1.status = .completed
                     then st.completed ++ [n.id] else st.completed } := by
  obtain ⟨hid, hdep, hterm, hfail, hother⟩ := executeNode_spec invoke st.results n
  have hndSt : (st.nodes.map (·.id)).Nodup := by
    rw [skel_eq_ids inv.skel_eq]
    exact hnd
  have hinj : ∀ x ∈ st.nodes, ∀ y ∈ st.nodes, x.id = y.id → x = y :=
    fun x hx y hy he => id_inj hndSt hx hy he
  have hsurv : ∀ x ∈ st.nodes, x ≠ n →
      x ∈ updNodes st.nodes (executeNode invoke st.results n).1 := by
    intro x hx hxe
    have hne : x.id ≠ (executeNode invoke st.results n).1.id := by
      rw [hid]
      intro he
      exact hxe (hinj x hx n hn he)
    unfold updNodes
    refine List.mem_map.mpr ⟨x, hx, ?_⟩
    rw [if_neg hne]
  have hsurvNP : ∀ x ∈ st.nodes, x.status ≠ .pending →
      x ∈ updNodes st.nodes (executeNode invoke st.results n).1 := by
    intro x hx hxs
    exact hsurv x hx (fun he => hxs (he ▸ hp))
  have hmem' : ∀ y ∈ updNodes st.nodes (executeNode invoke st.results n).1,
      y = (executeNode invoke st.results n).1 ∨ (y ∈ st.nodes ∧ y.id ≠ n.id) := by
    intro y hy
    unfold updNodes at hy
    obtain ⟨x, hx, hxy⟩ := List.mem_map.mp hy
    by_cases he : x.id = (executeNode invoke st.results n).1.id
    · rw [if_pos he] at hxy
      exact Or.inl hxy.symm
    · rw [if_neg he] at hxy
      rw [hid] at he
      exact Or.inr ⟨hxy ▸ hx, hxy ▸ he⟩
  have hnewMem : (executeNode invoke st.results n).1
      ∈ updNodes st.nodes (executeNode invoke st.results n).1 := by
    unfold updNodes
    refine List.mem_map.mpr ⟨n, hn, ?_⟩
    rw [if_pos hid.symm]
  refine ⟨?_, ?_, ?_, ?_⟩
  · rw [← inv.skel_eq]
    unfold updNodes
    rw [List.map_map]
    refine List.map_congr_left ?_
    intro x hx
    simp only [Function.comp]
    by_cases he : x.id = (executeNode invoke st.results n).1.id
    · have hxn : x = n := hinj x hx n hn (by rw [he, hid])
      subst hxn
      rw [if_pos he]
      simp [skel, hid, hdep]
    · rw [if_neg he]
  · intro y hy hys d hd
    have hwit : ∃ m ∈ st.nodes, m.id = d ∧ m.status = .completed := by
      rcases hmem' y hy with rfl | ⟨hyn, _⟩
      · rw [hdep] at hd
        exact hrdy d hd
      · exact inv.depsDone y hyn hys d hd
    obtain ⟨m, hm, hmd, hmc⟩ := hwit
    have hmne : m ≠ n := fun he => by
      rw [he, hp] at hmc
      cases hmc
    exact ⟨m, hsurv m hm hmne, hmd, hmc⟩
  · intro cid hcid
    by_cases hcc : (executeNode invoke st.results n).1.status = .completed
    · rw [if_pos hcc] at hcid
      rcases List.mem_append.mp hcid with hold | hnew
      · obtain ⟨m, hm, hmd, hmc⟩ := inv.compWitness cid hold
        have hmne : m ≠ n := fun he => by
          rw [he, hp] at hmc
          cases hmc
        exact ⟨m, hsurv m hm hmne, hmd, hmc⟩
      · rw [List.mem_singleton.mp hnew]
        exact ⟨(executeNode invoke st.results n).1, hnewMem, hid, hcc⟩
    · rw [if_neg hcc] at hcid
      obtain ⟨m, hm, hmd, hmc⟩ := inv.compWitness cid hcid
      have hmne : m ≠ n := fun he => by
        rw [he, hp] at hmc
        cases hmc
      exact ⟨m, hsurv m hm hmne, hmd, hmc⟩
  · intro y hy hyf
    rcases hmem' y hy with rfl | ⟨hyn, hyne⟩
    · obtain ⟨e, he1, he2⟩ := hfail hyf
      exact ⟨e, he1, by rw [hid]; exact he2⟩
    · obtain ⟨e, he1, he2⟩ := inv.errRecorded y hyn hyf
      exact ⟨e, he1, by rw [hother y.id hyne]; exact he2⟩

/-- A whole batch preserves the `aexecute` invariant. -/
lemma runBatch_inv (orig : List DAGNode) (hnd : (orig.map (·.id)).Nodup)
    (invoke : String → Params → Except String Value) :
    ∀ (ready : List DAGNode) (st : ExecState),
      AsyncInv orig st →
      (ready.map (·.id)).Nodup →
      (∀ r ∈ ready, r ∈ st.nodes ∧ r.status = .pending ∧
        ∀ d ∈ r.dependencies, d ∈ st.completed) →
      AsyncInv orig (runBatch invoke ready st) := by
  intro ready
  induction ready with
  | nil => intro st inv _ _; exact inv
  | cons n rest ih =>
      intro st inv hrnd hr
      simp only [List.map_cons, List.nodup_cons] at hrnd
      obtain ⟨hn, hp, hrd⟩ := hr n (by simp)
      have hrdy : ∀ d ∈ n.dependencies, ∃ m ∈ st.nodes, m.id = d ∧ m.status = .completed :=
        fun d hd => inv.compWitness d (hrd d hd)
      have inv2 := asyncInv_step orig hnd invoke st inv n hn hp hrdy
      obtain ⟨hid, _, _, _, _⟩ := executeNode_spec invoke st.results n
      simp only [runBatch]
      refine ih _ inv2 hrnd.2 ?_
      intro r hrm
      obtain ⟨hr1, hr2, hr3⟩ := hr r (List.mem_cons_of_mem _ hrm)
      have hrne : r.id ≠ n.id := fun hh => hrnd.1 (hh ▸ List.mem_map_of_mem (·.id) hrm)
      refine ⟨?_, hr2, ?_⟩
      · unfold updNodes
        refine List.mem_map.mpr ⟨r, hr1, ?_⟩
        rw [if_neg (by rw [hid]; exact hrne)]
      · intro d hd
        by_cases hcc : (executeNode invoke st.results n).1.status = .completed
        · rw [if_pos hcc]
          exact List.mem_append_left _ (hr3 d hd)
        · rw [if_neg hcc]
          exact hr3 d hd

/-- The `aexecute` loop preserves the invariant to its output pair, for
any fuel. -/
lemma aexecLoop_inv (orig : List DAGNode) (hnd : (orig.map (·.id)).Nodup)
    (invoke : String → Params → Except String Value) :
    ∀ (fuel : Nat) (st : ExecState), AsyncInv orig st →
      ((aexecLoop invoke fuel st).1.map skel = orig.map skel) ∧
      (∀ n ∈ (aexecLoop invoke fuel st).1, n.status ≠ .pending → ∀ d ∈ n.dependencies,
        ∃ m ∈ (aexecLoop invoke fuel st).1, m.id = d ∧ m.status = .completed) ∧
      (∀ f ∈ (aexecLoop invoke fuel st).1, f.status = .failed →
        ∃ e, f.error = some e ∧ dictGet (aexecLoop invoke fuel st).2 f.id = some (.verr e)) := by
  intro fuel
  induction fuel with
  | zero =>
      intro st inv
      exact ⟨inv.skel_eq, inv.depsDone, inv.errRecorded⟩
  | succ f ih =>
      intro st inv
      simp only [aexecLoop]
      by_cases hrd : (st.nodes.filter fun n => n.status == .pending && isReady n st.completed).isEmpty
      · rw [if_pos hrd]
        exact ⟨inv.skel_eq, inv.depsDone, inv.errRecorded⟩
      · rw [if_neg hrd]
        have hndSt : (st.nodes.map (·.id)).Nodup := by
          rw [skel_eq_ids inv.skel_eq]
          exact hnd
        have inv2 : AsyncInv orig
            (runBatch invoke
              (st.nodes.filter fun n => n.status == .pending && isReady n st.completed) st) := by
          refine runBatch_inv orig hnd invoke _ st inv ?_ ?_
          · exact hndSt.sublist ((List.filter_sublist _).map _)
          · intro r hrm
            have hmem := List.mem_of_mem_filter hrm
            have hpred := List.of_mem_filter hrm
            simp only [Bool.and_eq_true, beq_iff_eq] at hpred
            refine ⟨hmem, hpred.1, ?_⟩
            intro d hd
            have := hpred.2
            simp only [isReady, List.all_eq_true] at this
            simpa using this d hd
        by_cases hfl : (runBatch invoke
            (st.nodes.filter fun n => n.status == .pending && isReady n st.completed)
            st).nodes.any (fun n => n.status == .failed)
        · rw [if_pos hfl]
          exact ⟨inv2.skel_eq, inv2.depsDone, inv2.errRecorded⟩
        · rw [if_neg hfl]
          exact ih _ inv2

/-- Final-state facts of `aexecute`, mirroring `executeSync_facts`. -/
lemma executeAsync_facts (invoke : String → Params → Except String Value) (p : DAGPlan)
    (hv : p.validate = []) (hpending : ∀ n ∈ p.nodes, n.status = .pending) :
    ((executeAsync invoke p).1.map skel = p.nodes.map skel) ∧
    (∀ n ∈ (executeAsync invoke p).1, n.status ≠ .pending → ∀ d ∈ n.dependencies,
      ∃ m ∈ (executeAsync invoke p).1, m.id = d ∧ m.status = .completed) ∧
    (∀ f ∈ (executeAsync invoke p).1, f.status = .failed →
      ∃ e, f.error = some e ∧ dictGet (executeAsync invoke p).2 f.id = some (.verr e)) := by
  obtain ⟨hnd, _, _⟩ := validate_parts p hv
  have inv0 : AsyncInv p.nodes ⟨p.nodes, [], []⟩ := by
    refine ⟨rfl, ?_, ?_, ?_⟩
    · intro n hn hnp
      exact absurd (hpending n hn) hnp
    · intro cid hcid
      cases hcid
    · intro n hn hnf
      rw [hpending n hn] at hnf
      cases hnf
  exact aexecLoop_inv p.nodes hnd invoke (p.nodes.length + 1) ⟨p.nodes, [], []⟩ inv0

/-- From skeleton preservation and the deps-completed property, a failed
node's transitive dependents are all still pending. -/
lemma c2_final (orig final : List DAGNode) (hnd : (orig.map (·.id)).Nodup)
    (hskel : final.map skel = orig.map skel)
    (hA : ∀ n ∈ final, n.status ≠ .pending → ∀ d ∈ n.dependencies,
      ∃ m ∈ final, m.id = d ∧ m.status = .completed) :
    ∀ f ∈ final, f.status = .failed → ∀ n ∈ final,
      Relation.TransGen (DependsOn orig) n.id f.id → n.status = .pending := by
  have hndF : (final.map (·.id)).Nodup := by
    rw [skel_eq_ids hskel]
    exact hnd
  have hdepIff : ∀ a b, DependsOn orig a b →
      ∃ m ∈ final, m.id = a ∧ b ∈ m.dependencies := by
    rintro a b ⟨m, hm, hma, hmb⟩
    have hmm : (a, m.dependencies) ∈ orig.map skel := by
      refine List.mem_map.mpr ⟨m, hm, ?_⟩
      simp [skel, hma]
    rw [← hskel] at hmm
    obtain ⟨m2, hm2, hm2e⟩ := List.mem_map.mp hmm
    have h1 : m2.id = a := congrArg Prod.fst hm2e
    have h2 : m2.dependencies = m.dependencies := congrArg Prod.snd hm2e
    exact ⟨m2, hm2, h1, h2 ▸ hmb⟩
  have hchain : ∀ a b, Relation.TransGen (DependsOn orig) a b →
      ∀ na ∈ final, na.id = a → na.status ≠ .pending →
        ∃ nb ∈ final, nb.id = b ∧ nb.status = .completed := by
    intro a b h
    induction h with
    | single hstep =>
        intro na hna hnaid hnas
        obtain ⟨m, hm, hmid, hmdep⟩ := hdepIff _ _ hstep
        have hmn : m = na := id_inj hndF hm hna (by rw [hmid, hnaid])
        subst hmn
        exact hA m hna hnas _ hmdep
    | tail _ hbc ih =>
        intro na hna hnaid hnas
        obtain ⟨nb, hnb, hnbid, hnbc⟩ := ih na hna hnaid hnas
        obtain ⟨m, hm, hmid, hmdep⟩ := hdepIff _ _ hbc
        have hmn : m = nb := id_inj hndF hm hnb (by rw [hmid, hnbid])
        subst hmn
        exact hA m hnb (by simp [hnbc]) _ hmdep
  intro f hf hff n hn htg
  by_contra hcon
  obtain ⟨nb, hnb, hnbid, hnbc⟩ := hchain n.id f.id htg n hn rfl hcon
  have : nb = f := id_inj hndF hnb hf hnbid
  rw [this, hff] at hnbc
  cases hnbc

/-- C2: in both `execute` and `aexecute`, once a node has failed, every
transitive dependent of it is never started (its status is still
`pending` at return — in this embedding a node is started exactly when
its status leaves `pending`), and the failed node's error message is
recorded in the returned result map under its id; no further levels run
(they would otherwise have left `pending`). -/
theorem C2_failed_dependents (invoke : String → Params → Except String Value)
    (p : DAGPlan) (hv : p.validate = []) (hpending : ∀ n ∈ p.nodes, n.status = .pending) :
    (∀ f ∈ (executeSync invoke p).2, f.status = .failed →
      (∃ e, f.error = some e ∧ dictGet (executeSync invoke p).1 f.id = some (.verr e)) ∧
      ∀ n ∈ (executeSync invoke p).2,
        Relation.TransGen (DependsOn p.nodes) n.id f.id → n.status = .pending) ∧
    (∀ f ∈ (executeAsync invoke p).1, f.status = .failed →
      (∃ e, f.error = some e ∧ dictGet (executeAsync invoke p).2 f.id = some (.verr e)) ∧
      ∀ n ∈ (executeAsync invoke p).1,
        Relation.TransGen (DependsOn p.nodes) n.id f.id → n.status = .pending) := by
  obtain ⟨hnd, _, _⟩ := validate_parts p hv
  obtain ⟨hskelS, hAS, hES⟩ := executeSync_facts invoke p hv hpending
  obtain ⟨hskelA, hAA, hEA⟩ := executeAsync_facts invoke p hv hpending
  constructor
  · intro f hf hff
    exact ⟨hES f hf hff,
      fun n hn htg => c2_final p.nodes _ hnd hskelS hAS f hf hff n hn htg⟩
  · intro f hf hff
    exact ⟨hEA f hf hff,
      fun n hn htg => c2_final p.nodes _ hnd hskelA hAA f hf hff n hn htg⟩

/-- A concrete fan-out plan for the C2 witness: `d` depends on `a`, `b`,
`c`; the oracle fails exactly the `predict` tool used by `b`. -/
def c2wPlan : DAGPlan :=
  { nodes := [{ id := "a", name := "a", tool := "execute_sql" },
              { id := "b", name := "b", tool := "predict" },
              { id := "c", name := "c", tool := "execute_sql" },
              { id := "d", name := "d", tool := "execute_sql",
                dependencies := ["a", "b", "c"] }] }

def c2wOracle : String → Params → Except String Value := fun t _ =>
  if t = "predict" then .error "boom" else .ok (.vint 1)

theorem C2_failed_dependents_witness :
    c2wPlan.validate = [] ∧ (∀ n ∈ c2wPlan.nodes, n.status = .pending) ∧
    ((∀ f ∈ (executeSync c2wOracle c2wPlan).2, f.status = .failed →
      (∃ e, f.error = some e ∧
        dictGet (executeSync c2wOracle c2wPlan).1 f.id = some (.verr e)) ∧
      ∀ n ∈ (executeSync c2wOracle c2wPlan).2,
        Relation.TransGen (DependsOn c2wPlan.nodes) n.id f.id → n.status = .pending) ∧
    (∀ f ∈ (executeAsync c2wOracle c2wPlan).1, f.status = .failed →
      (∃ e, f.error = some e ∧
        dictGet (executeAsync c2wOracle c2wPlan).2 f.id = some (.verr e)) ∧
      ∀ n ∈ (executeAsync c2wOracle c2wPlan).1,
        Relation.TransGen (DependsOn c2wPlan.nodes) n.id f.id → n.status = .pending)) :=
  ⟨by decide, by decide, C2_failed_dependents c2wOracle c2wPlan (by decide) (by decide)⟩

/-! ## Conversation compactor (`agent/compactor.py`)

The tiktoken encoder is an external collaborator, abstracted as
`enc : String → Nat` (the token count of a non-empty content string);
the summarising LLM call is `summarize : List Msg → String`.  Python's
float multiplication in `int(max_tokens * keep_ratio)` is idealised as
exact rational arithmetic. -/

/-- Message roles: covers both the LangChain message classes and the
`{"role": ..., "content": ...}` dict form. -/
inductive Role where
  | system
  | user
  | assistant
  | toolRole
deriving DecidableEq, Repr

/-- A conversation message. -/
structure Msg where
  role : Role
  content : String
deriving DecidableEq, Repr

/-- `_count_single_message`: content tokens (empty content encodes
nothing) plus the 4-token per-message overhead. -/
def countSingle (enc : String → Nat) (m : Msg) : Nat :=
  (if m.content = "" then 0 else enc m.content) + 4

/-- `count_tokens`. -/
def countTokens (enc : String → Nat) (msgs : List Msg) : Nat :=
  (msgs.map (countSingle enc)).sum

/-- `int(max_tokens * keep_ratio)`. -/
def keepTokens (maxTokens : Nat) (keepRatio : ℚ) : Nat :=
  (⌊(maxTokens : ℚ) * keepRatio⌋).toNat

/-- The backwards accumulation loop of `compact`: walk the reversed
message list, keeping messages while the running total stays within the
budget. -/
def takeRecent (enc : String → Nat) (keepT : Nat) :
    List Msg → List Msg → Nat → List Msg
  | [], acc, _ => acc
  | m :: rev, acc, accTok =>
      if accTok + countSingle enc m > keepT then acc
      else takeRecent enc keepT rev (m :: acc) (accTok + countSingle enc m)

/-- `_is_human_message`. -/
def isHumanMsg (m : Msg) : Bool := m.role == .user

/-- `_ensure_start_with_human`: drop to the first user message; if there
is none, return the list unchanged. -/
def ensureStartWithHuman (msgs : List Msg) : List Msg :=
  let d := msgs.dropWhile fun m => !(isHumanMsg m)
  if d = [] then msgs else d

/-- The prefix/suffix split computed by `compact`. -/
def compactSplit (enc : String → Nat) (keepT : Nat) (messages : List Msg) :
    List Msg × List Msg :=
  let recent := takeRecent enc keepT messages.reverse [] 0
  let recent2 := ensureStartWithHuman recent
  (messages.take (messages.length - recent2.length), recent2)

/-- The `"[对话历史摘要]\n"` prefix of the summary message. -/
def summaryTag : String := "[对话历史摘要]\n"

/-- `ConversationCompactor.compact` with the budget precomputed. -/
def compactAux (enc : String → Nat) (summarize : List Msg → String) (keepT : Nat)
    (messages : List Msg) : List Msg :=
  let s := compactSplit enc keepT messages
  if s.1 = [] then messages
  else { role := .system, content := summaryTag ++ summarize s.1 } :: s.2

/-- `ConversationCompactor.compact`. -/
def compact (enc : String → Nat) (summarize : List Msg → String) (maxTokens : Nat)
    (keepRatio : ℚ) (messages : List Msg) : List Msg :=
  compactAux enc summarize (keepTokens maxTokens keepRatio) messages

lemma takeRecent_tokens (enc : String → Nat) (keepT : Nat) :
    ∀ (rev acc : List Msg) (accTok : Nat), countTokens enc acc = accTok → accTok ≤ keepT →
      countTokens enc (takeRecent enc keepT rev acc accTok) ≤ keepT := by
  intro rev
  induction rev with
  | nil =>
      intro acc accTok h1 h2
      simp only [takeRecent]
      omega
  | cons m rev' ih =>
      intro acc accTok h1 h2
      simp only [takeRecent]
      by_cases hb : accTok + countSingle enc m > keepT
      · rw [if_pos hb]
        omega
      · rw [if_neg hb]
        refine ih (m :: acc) _ ?_ (by omega)
        unfold countTokens at h1 ⊢
        simp only [List.map_cons, List.sum_cons]
        omega

lemma takeRecent_take (enc : String → Nat) (keepT : Nat) :
    ∀ (rev acc : List Msg) (accTok : Nat),
      ∃ j, takeRecent enc keepT rev acc accTok = (rev.take j).reverse ++ acc := by
  intro rev
  induction rev with
  | nil => intro acc accTok; exact ⟨0, by simp [takeRecent]⟩
  | cons m rev' ih =>
      intro acc accTok
      simp only [takeRecent]
      by_cases hb : accTok + countSingle enc m > keepT
      · rw [if_pos hb]
        exact ⟨0, by simp⟩
      · rw [if_neg hb]
        obtain ⟨j, hj⟩ := ih (m :: acc) (accTok + countSingle enc m)
        refine ⟨j + 1, ?_⟩
        rw [hj]
        simp [List.take_succ_cons, List.reverse_cons]

lemma takeRecent_suffix (enc : String → Nat) (keepT : Nat) (msgs : List Msg) :
    takeRecent enc keepT msgs.reverse [] 0 <:+ msgs := by
  obtain ⟨j, hj⟩ := takeRecent_take enc keepT msgs.reverse [] 0
  rw [hj, List.append_nil]
  refine ⟨(msgs.reverse.drop j).reverse, ?_⟩
  rw [← List.reverse_append, List.take_append_drop, List.reverse_reverse]

lemma ensureStartWithHuman_suffix (l : List Msg) : ensureStartWithHuman l <:+ l := by
  unfold ensureStartWithHuman
  by_cases hd : l.dropWhile (fun m => !(isHumanMsg m)) = []
  · rw [if_pos hd]
  · rw [if_neg hd]
    exact List.dropWhile_suffix _

lemma countTokens_suffix_le (enc : String → Nat) {s l : List Msg} (h : s <:+ l) :
    countTokens enc s ≤ countTokens enc l := by
  obtain ⟨t, rfl⟩ := h
  simp [countTokens]

lemma compactSplit_append (enc : String → Nat) (keepT : Nat) (messages : List Msg) :
    messages = (compactSplit enc keepT messages).1 ++ (compactSplit enc keepT messages).2 := by
  have hsuf : (compactSplit enc keepT messages).2 <:+ messages :=
    (ensureStartWithHuman_suffix _).trans (takeRecent_suffix enc keepT messages)
  obtain ⟨t, ht⟩ := hsuf
  have hlen : t.length = messages.length - (compactSplit enc keepT messages).2.length := by
    have := congrArg List.length ht
    simp at this
    omega
  have htake : (compactSplit enc keepT messages).1 = t := by
    show messages.take (messages.length - (compactSplit enc keepT messages).2.length) = t
    rw [← hlen, ← ht, List.take_left]
  rw [htake, ht]

lemma compactSplit_tokens (enc : String → Nat) (keepT : Nat) (messages : List Msg) :
    countTokens enc (compactSplit enc keepT messages).2 ≤ keepT := by
  have h1 : countTokens enc (takeRecent enc keepT messages.reverse [] 0) ≤ keepT :=
    takeRecent_tokens enc keepT messages.reverse [] 0 rfl (Nat.zero_le _)
  exact le_trans (countTokens_suffix_le enc (ensureStartWithHuman_suffix _)) h1

lemma dropWhile_head_false {p : Msg → Bool} {l : List Msg} {x : Msg} {xs : List Msg}
    (h : l.dropWhile p = x :: xs) : p x = false := by
  have := List.head?_dropWhile_not p l
  rw [h] at this
  exact this

lemma keepTokens_forty : keepTokens 40 (1/10) = 4 := by
  unfold keepTokens
  norm_num
  rfl

lemma keepTokens_eighty : keepTokens 80 (1/10) = 8 := by
  unfold keepTokens
  norm_num
  rfl

lemma compactSplit_snd (enc : String → Nat) (keepT : Nat) (messages : List Msg) :
    (compactSplit enc keepT messages).2
      = ensureStartWithHuman (takeRecent enc keepT messages.reverse [] 0) := rfl

lemma ensureStartWithHuman_head_user (l : List Msg)
    (hany : (ensureStartWithHuman l).any isHumanMsg = true) :
    ∃ m t, ensureStartWithHuman l = m :: t ∧ m.role = .user := by
  simp only [ensureStartWithHuman] at hany ⊢
  rcases hd : l.dropWhile (fun m => !(isHumanMsg m)) with _ | ⟨x, xs⟩
  · exfalso
    rw [hd, if_pos rfl] at hany
    obtain ⟨m, hm, hmh⟩ := List.any_eq_true.mp hany
    have hall := List.dropWhile_eq_nil_iff.mp hd
    have hcontra := hall m hm
    rw [hmh] at hcontra
    simp at hcontra
  · rw [if_neg (by simp)]
    have hx : isHumanMsg x = true := by
      have := dropWhile_head_false hd
      simpa using this
    exact ⟨x, xs, rfl, by simpa [isHumanMsg] using hx⟩

/-- C6 (claim as stated) is false on the code: when the retained suffix
contains no user message, `_ensure_start_with_human` keeps it as-is, so
the compacted sequence need not have a user message right after the
summary. -/
theorem C6_counterexample :
    compact String.length (fun _ => "S") 40 (1/10)
        [⟨.assistant, ""⟩, ⟨.assistant, ""⟩]
      = [⟨.system, summaryTag ++ "S"⟩, ⟨.assistant, ""⟩] ∧
    Role.assistant ≠ Role.user := by
  refine ⟨?_, by decide⟩
  simp only [compact, keepTokens_forty]
  decide

/-- C6 (amended): when compaction actually summarises a non-empty
prefix, the result is a single system message carrying the summary
followed by the retained suffix; the suffix's token count is at most
`keep_ratio × max_tokens`; and the suffix begins with a user message
whenever it contains one (otherwise it is kept as-is and may start with
a non-user message or be empty). -/
theorem C6_compaction (enc : String → Nat) (summarize : List Msg → String)
    (maxTokens : Nat) (keepRatio : ℚ) (hr : 0 ≤ keepRatio) (messages : List Msg)
    (hperf : (compactSplit enc (keepTokens maxTokens keepRatio) messages).1 ≠ []) :
    compact enc summarize maxTokens keepRatio messages
      = { role := .system,
          content := summaryTag ++
            summarize (compactSplit enc (keepTokens maxTokens keepRatio) messages).1 }
        :: (compactSplit enc (keepTokens maxTokens keepRatio) messages).2 ∧
    (countTokens enc (compactSplit enc (keepTokens maxTokens keepRatio) messages).2 : ℚ)
      ≤ keepRatio * maxTokens ∧
    ((compactSplit enc (keepTokens maxTokens keepRatio) messages).2.any isHumanMsg = true →
      ∃ m t, (compactSplit enc (keepTokens maxTokens keepRatio) messages).2 = m :: t ∧
        m.role = .user) := by
  refine ⟨?_, ?_, ?_⟩
  · simp only [compact, compactAux]
    rw [if_neg hperf]
  · have h1 := compactSplit_tokens enc (keepTokens maxTokens keepRatio) messages
    have h2 : ((keepTokens maxTokens keepRatio : Nat) : ℚ) ≤ keepRatio * maxTokens := by
      unfold keepTokens
      have hx : (0 : ℚ) ≤ (maxTokens : ℚ) * keepRatio :=
        mul_nonneg (by positivity) hr
      have hf : (0 : ℤ) ≤ ⌊(maxTokens : ℚ) * keepRatio⌋ := Int.floor_nonneg.mpr hx
      rw [mul_comm keepRatio (maxTokens : ℚ)]
      calc ((⌊(maxTokens : ℚ) * keepRatio⌋.toNat : Nat) : ℚ)
          = ((⌊(maxTokens : ℚ) * keepRatio⌋ : ℤ) : ℚ) := by
            rw [← Int.toNat_of_nonneg hf]
            push_cast
            rw [Int.toNat_of_nonneg hf]
        _ ≤ (maxTokens : ℚ) * keepRatio := Int.floor_le _
    calc (countTokens enc (compactSplit enc (keepTokens maxTokens keepRatio) messages).2 : ℚ)
        ≤ ((keepTokens maxTokens keepRatio : Nat) : ℚ) := by exact_mod_cast h1
      _ ≤ keepRatio * maxTokens := h2
  · intro hany
    rw [compactSplit_snd] at hany ⊢
    exact ensureStartWithHuman_head_user _ hany

/-- A witness for C6 at a concrete history: two user turns around an
assistant turn, budget 4 tokens. -/
theorem C6_compaction_witness :
    (0 : ℚ) ≤ 1/10 ∧
    (compactSplit String.length (keepTokens 40 (1/10))
      [⟨.user, ""⟩, ⟨.assistant, ""⟩, ⟨.user, ""⟩]).1 ≠ [] ∧
    (compact String.length (fun _ => "W") 40 (1/10)
        [⟨.user, ""⟩, ⟨.assistant, ""⟩, ⟨.user, ""⟩]
      = { role := .system,
          content := summaryTag ++
            (fun _ => "W") (compactSplit String.length (keepTokens 40 (1/10))
              [⟨.user, ""⟩, ⟨.assistant, ""⟩, ⟨.user, ""⟩]).1 }
        :: (compactSplit String.length (keepTokens 40 (1/10))
              [⟨.user, ""⟩, ⟨.assistant, ""⟩, ⟨.user, ""⟩]).2 ∧
    (countTokens String.length (compactSplit String.length (keepTokens 40 (1/10))
        [⟨.user, ""⟩, ⟨.assistant, ""⟩, ⟨.user, ""⟩]).2 : ℚ) ≤ (1/10) * 40 ∧
    ((compactSplit String.length (keepTokens 40 (1/10))
        [⟨.user, ""⟩, ⟨.assistant, ""⟩, ⟨.user, ""⟩]).2.any isHumanMsg = true →
      ∃ m t, (compactSplit String.length (keepTokens 40 (1/10))
          [⟨.user, ""⟩, ⟨.assistant, ""⟩, ⟨.user, ""⟩]).2 = m :: t ∧ m.role = .user)) :=
  ⟨by norm_num, by rw [keepTokens_forty]; decide,
    C6_compaction String.length (fun _ => "W") 40 (1/10) (by norm_num) _
      (by rw [keepTokens_forty]; decide)⟩

/-- C9 (claim as stated) is false on the code: a history that fits the
keep budget but starts with a non-user message (while containing one) is
still summarised, because `_ensure_start_with_human` trims the leading
non-user messages out of the retained suffix. -/
theorem C9_counterexample :
    countTokens String.length [(⟨.system, ""⟩ : Msg), ⟨.user, ""⟩] ≤ keepTokens 80 (1/10) ∧
    compact String.length (fun _ => "S") 80 (1/10) [⟨.system, ""⟩, ⟨.user, ""⟩]
      = [⟨.system, summaryTag ++ "S"⟩, ⟨.user, ""⟩] ∧
    compact String.length (fun _ => "S") 80 (1/10) [⟨.system, ""⟩, ⟨.user, ""⟩]
      ≠ [⟨.system, ""⟩, ⟨.user, ""⟩] := by
  refine ⟨?_, ?_, ?_⟩
  · rw [keepTokens_eighty]
    decide
  · simp only [compact, keepTokens_eighty]
    decide
  · simp only [compact, keepTokens_eighty]
    decide

/-- C9 (amended): if the whole history fits within the keep budget and
it either is empty, begins with a user message, or contains no user
message at all, then `compact` is the identity and the summarising LLM
is never invoked (the result does not depend on `summarize`). -/
theorem C9_compact_identity (enc : String → Nat) (maxTokens : Nat) (keepRatio : ℚ)
    (messages : List Msg)
    (hfit : countTokens enc messages ≤ keepTokens maxTokens keepRatio)
    (hstart : messages = [] ∨ (∃ m t, messages = m :: t ∧ m.role = .user) ∨
      (∀ m ∈ messages, m.role ≠ .user)) :
    ∀ summarize : List Msg → String,
      compact enc summarize maxTokens keepRatio messages = messages := by
  intro summarize
  have hall : takeRecent enc (keepTokens maxTokens keepRatio) messages.reverse [] 0
      = messages := by
    have : ∀ (rev acc : List Msg) (accTok : Nat),
        accTok + countTokens enc rev ≤ keepTokens maxTokens keepRatio →
        takeRecent enc (keepTokens maxTokens keepRatio) rev acc accTok
          = rev.reverse ++ acc := by
      intro rev
      induction rev with
      | nil => intro acc accTok _; simp [takeRecent]
      | cons m rev' ih =>
          intro acc accTok hle
          unfold countTokens at hle
          simp only [List.map_cons, List.sum_cons] at hle
          have hb : ¬ accTok + countSingle enc m > keepTokens maxTokens keepRatio := by omega
          simp only [takeRecent, if_neg hb]
          rw [ih (m :: acc) (accTok + countSingle enc m) (by unfold countTokens; omega)]
          simp
    have h := this messages.reverse [] 0 (by
      have : countTokens enc messages.reverse = countTokens enc messages := by
        unfold countTokens
        rw [List.map_reverse, List.sum_reverse]
      omega)
    rw [h, List.reverse_reverse, List.append_nil]
  have hens : ensureStartWithHuman messages = messages := by
    rcases hstart with rfl | ⟨m, t, rfl, hm⟩ | hno
    · rfl
    · have hth : isHumanMsg m = true := by simp [isHumanMsg, hm]
      simp [ensureStartWithHuman, List.dropWhile_cons, hth]
    · have hd : (messages.dropWhile fun m => !(isHumanMsg m)) = [] := by
        rw [List.dropWhile_eq_nil_iff]
        intro x hx
        simp [isHumanMsg]
        exact hno x hx
      simp only [ensureStartWithHuman]
      rw [if_pos hd]
  simp only [compact, compactAux, compactSplit]
  rw [hall, hens]
  simp

theorem C9_compact_identity_witness :
    countTokens String.length [(⟨.user, ""⟩ : Msg), ⟨.assistant, ""⟩] ≤ keepTokens 80 (1/10) ∧
    ([(⟨.user, ""⟩ : Msg), ⟨.assistant, ""⟩] = ([] : List Msg) ∨
      (∃ m t, [(⟨.user, ""⟩ : Msg), ⟨.assistant, ""⟩] = m :: t ∧ m.role = .user) ∨
      (∀ m ∈ [(⟨.user, ""⟩ : Msg), ⟨.assistant, ""⟩], m.role ≠ .user)) ∧
    (∀ summarize : List Msg → String,
      compact String.length summarize 80 (1/10) [⟨.user, ""⟩, ⟨.assistant, ""⟩]
        = [⟨.user, ""⟩, ⟨.assistant, ""⟩]) :=
  ⟨by rw [keepTokens_eighty]; decide,
    Or.inr (Or.inl ⟨⟨.user, ""⟩, [⟨.assistant, ""⟩], rfl, rfl⟩),
    C9_compact_identity String.length 80 (1/10) _ (by rw [keepTokens_eighty]; decide)
      (Or.inr (Or.inl ⟨⟨.user, ""⟩, [⟨.assistant, ""⟩], rfl, rfl⟩))⟩

lemma NodeStatus.ofStr_toStr (st : NodeStatus) : NodeStatus.ofStr st.toStr = some st := by
  cases st <;> rfl

lemma DAGNode.fromDict_toDict (n : DAGNode) : DAGNode.fromDict n.toDict = some n := by
  simp [DAGNode.fromDict, DAGNode.toDict, NodeStatus.ofStr_toStr]

lemma optMap_fromDict_map_toDict (ns : List DAGNode) :
    optMap DAGNode.fromDict (ns.map DAGNode.toDict) = some ns := by
  induction ns with
  | nil => rfl
  | cons n t ih => simp [optMap, DAGNode.fromDict_toDict, ih]

/-- C7: converting a `DAGPlan` with `to_dict` and reconstructing with
`from_dict` yields a plan whose nodes have the same ids, tools, params,
dependencies and statuses (including terminal ones) as the original, in
the same order — in fact the reconstructed plan is equal to the
original. -/
theorem C7_plan_roundtrip (p : DAGPlan) :
    DAGPlan.fromDict p.toDict = some p := by
  simp [DAGPlan.fromDict, DAGPlan.toDict, optMap_fromDict_map_toDict]

/-! ## WebSocket confirmation gate (`api/websocket.py`)

`needs_confirmation`, `is_sql_tool` and the `on_tool_call` callback of
`process_user_message`, together with the `run_chat` wrapper.  The
client's resolution of a pending confirmation (when the decision
arrives, which decision, which edited arguments) is an external
collaborator, as is the tool runtime producing tool results. -/

/-- The mode flags that matter here (`get_mode_manager().config`). -/
structure ModeConfig where
  safeMode : Bool
deriving DecidableEq, Repr

/-- ASCII lowering, modelling `str.lower()` on tool names. -/
def lowerChar (c : Char) : Char :=
  if 65 ≤ c.toNat ∧ c.toNat ≤ 90 then Char.ofNat (c.toNat + 32) else c

/-- `tool_name.lower()`. -/
def strLower (s : String) : String := ⟨s.data.map lowerChar⟩

/-- `hay` starts with `pat` (character-level). -/
def listStartsWith : List Char → List Char → Bool
  | _, [] => true
  | [], _ :: _ => false
  | c :: cs, d :: ds => c == d && listStartsWith cs ds

/-- Python's `pat in hay` substring test (character-level). -/
def containsSub (hay pat : List Char) : Bool :=
  match hay with
  | [] => listStartsWith [] pat
  | _ :: t => listStartsWith hay pat || containsSub t pat

/-- The `sql_tools` set in `is_sql_tool`. -/
def sqlToolNames : List String := ["execute_sql", "query_database", "run_sql"]

/-- `is_sql_tool`: the lowered name is in the set, or contains `"sql"`. -/
def isSqlTool (toolName : String) : Bool :=
  sqlToolNames.contains (strLower toolName)
    || containsSub (strLower toolName).data "sql".data

/-- `needs_confirmation`: with safe mode off, `False`; otherwise exactly
`is_sql_tool(tool_name)`.  The `tool_args` parameter is present in the
source but never read. -/
def needsConfirmation (cfg : ModeConfig) (toolName : String)
    (toolArgs : Params) : Bool :=
  if !cfg.safeMode then false
  else isSqlTool toolName

/-- Spec-modelled (NOT from the code): the spec's "SQL tool performing a
data-modifying statement" — the SQL text (taken from the `query` or
`sql` argument) begins with a data-modification keyword.  This follows
the spec's words, for comparison with the code's `needs_confirmation`. -/
def specIsDataModifying (args : Params) : Bool :=
  let q := match dictGet args "query" with
    | some (Value.vstr s) => s
    | _ => match dictGet args "sql" with
      | some (Value.vstr s) => s
      | _ => ""
  ["INSERT", "UPDATE", "DELETE", "DROP", "ALTER", "CREATE", "TRUNCATE"].any
    fun kw => listStartsWith q.data kw.data

/-- Spec-modelled (NOT from the code): the claim's reading of
`needs_confirmation`. -/
def specNeedsConfirmation (cfg : ModeConfig) (toolName : String)
    (args : Params) : Bool :=
  cfg.safeMode && isSqlTool toolName && specIsDataModifying args

/-- The events `on_tool_call` / `on_tool_result` / `run_chat` put on the
event queue (the ones relevant to the confirmation gate). -/
inductive Event where
  | confirmationRequest (toolName : String) (args : Params)
  | toolCall (toolName : String) (args : Params)
  | toolResult (toolName : String) (result : String)
  | message (content : String)
  | done
deriving DecidableEq, Repr

/-- How the client resolves one pending confirmation: when (if ever) the
decision arrives in seconds, the decision string, and the edited
arguments (`[]` models a missing/falsy `edited_args`). -/
structure Resolution where
  arrivesAt : Option Nat
  decision : String
  editedArgs : Params
deriving DecidableEq, Repr

/-- `confirmation_event.wait(timeout=300)`: `True` iff the decision
arrives within 300 seconds. -/
def confirmWait (arrivesAt : Option Nat) : Bool :=
  match arrivesAt with
  | none => false
  | some t => t ≤ 300

/-- `tool_args.update(edited_args)`. -/
def updParams (d : Params) (upd : Params) : Params :=
  upd.foldl (fun acc kv => setVal acc kv.1 kv.2) d

/-- `on_tool_call`: gate one tool call.  Returns the events it emits and
either the (possibly edited) arguments the call proceeds with, or the
`InterruptedError` message it raises. -/
def onToolCall (cfg : ModeConfig) (r : Resolution) (toolName : String)
    (toolArgs : Params) : List Event × Except String Params :=
  if needsConfirmation cfg toolName toolArgs then
    if confirmWait r.arrivesAt then
      if r.decision = "reject" then
        ([.confirmationRequest toolName toolArgs],
         .error ("用户拒绝执行 " ++ toolName))
      else
        let args2 :=
          if r.decision = "edit" && !r.editedArgs.isEmpty
          then updParams toolArgs r.editedArgs
          else toolArgs
        ([.confirmationRequest toolName toolArgs, .toolCall toolName args2],
         .ok args2)
    else
      ([.confirmationRequest toolName toolArgs],
       .error ("确认超时，取消执行 " ++ toolName))
  else
    ([.toolCall toolName toolArgs], .ok toolArgs)

/-- The tool-call side of one `chat_stream` turn: fire `on_tool_call`
for each streamed call in order (successful calls then produce a
`tool_result` event via `on_tool_result`); an exception raised by the
callback propagates out of `_execute_stream` and aborts the turn.
Returns the emitted events and either the dispatched calls with their
final arguments, or the error. -/
def runTurn (cfg : ModeConfig) (res : Nat → Resolution)
    (toolRun : String → Params → String) :
    List (String × Params) → Nat → List Event × Except String (List (String × Params))
  | [], _ => ([], .ok [])
  | (t, a) :: rest, step =>
      match onToolCall cfg (res step) t a with
      | (evs, .error e) => (evs, .error e)
      | (evs, .ok args2) =>
          let rec2 := runTurn cfg res toolRun rest (step + 1)
          (evs ++ [.toolResult t (toolRun t args2)] ++ rec2.1,
           match rec2.2 with
           | .error e => .error e
           | .ok l => .ok ((t, args2) :: l))

/-- `run_chat`: a turn ending in `InterruptedError` becomes a `message`
event carrying the error text; `done` is always emitted last. -/
def runChat (cfg : ModeConfig) (res : Nat → Resolution)
    (toolRun : String → Params → String) (calls : List (String × Params))
    (response : String) : List Event :=
  match runTurn cfg res toolRun calls 1 with
  | (evs, .ok _) => evs ++ [.message response, .done]
  | (evs, .error e) => evs ++ [.message e, .done]

lemma onToolCall_safe_off (cfg : ModeConfig) (r : Resolution) (t : String)
    (a : Params) (hnc : needsConfirmation cfg t a = false) :
    onToolCall cfg r t a = ([Event.toolCall t a], Except.ok a) := by
  unfold onToolCall
  rw [hnc]
  simp

lemma runTurn_no_confirmation (cfg : ModeConfig) (hsm : cfg.safeMode = false)
    (res : Nat → Resolution) (toolRun : String → Params → String) :
    ∀ (calls : List (String × Params)) (step : Nat),
      ∀ e ∈ (runTurn cfg res toolRun calls step).1,
        ∀ t a, e ≠ Event.confirmationRequest t a := by
  intro calls
  induction calls with
  | nil =>
      intro step e he
      simp [runTurn] at he
  | cons c rest ih =>
      intro step e he t2 a2
      obtain ⟨t, a⟩ := c
      have hnc : needsConfirmation cfg t a = false := by
        simp [needsConfirmation, hsm]
      simp only [runTurn, onToolCall_safe_off cfg (res step) t a hnc] at he
      simp only [List.cons_append, List.nil_append, List.mem_cons,
        List.mem_append] at he
      rcases he with rfl | rfl | he
      · simp
      · simp
      · exact ih (step + 1) e he t2 a2

/-- C4 (claim as stated) is false on the code: with safe mode on,
`needs_confirmation` returns `true` for `execute_sql` even when the
statement is a plain `SELECT` (not data-modifying) — it never inspects
the arguments (same answer as for a `DROP`), so it disagrees with the
spec-worded predicate on this input. -/
theorem C4_counterexample :
    needsConfirmation ⟨true⟩ "execute_sql" [("query", Value.vstr "SELECT 1")] = true ∧
    specNeedsConfirmation ⟨true⟩ "execute_sql" [("query", Value.vstr "SELECT 1")] = false ∧
    needsConfirmation ⟨true⟩ "execute_sql" [("query", Value.vstr "SELECT 1")]
      = needsConfirmation ⟨true⟩ "execute_sql" [("query", Value.vstr "DROP TABLE t")] := by
  refine ⟨?_, ?_, ?_⟩ <;> decide

/-- C4 (amended): `needs_confirmation(tool, args)` is true exactly when
safe mode is on and the tool is an SQL tool — the arguments (hence
whether the statement is data-modifying) are never inspected; and
whenever safe mode is off, no `confirmation_request` event is ever
emitted during a turn. -/
theorem C4_needs_confirmation (cfg : ModeConfig) (toolName : String)
    (args : Params) (res : Nat → Resolution)
    (toolRun : String → Params → String) (calls : List (String × Params))
    (step : Nat) :
    needsConfirmation cfg toolName args = (cfg.safeMode && isSqlTool toolName) ∧
    (cfg.safeMode = false →
      ∀ e ∈ (runTurn cfg res toolRun calls step).1,
        ∀ t a, e ≠ Event.confirmationRequest t a) := by
  constructor
  · rcases cfg with ⟨sm⟩
    cases sm <;> simp [needsConfirmation]
  · intro hsm
    exact runTurn_no_confirmation cfg hsm res toolRun calls step

theorem C4_needs_confirmation_witness :
    needsConfirmation ⟨false⟩ "execute_sql" [("query", Value.vstr "DROP TABLE t")]
        = (false && isSqlTool "execute_sql") ∧
    (∀ e ∈ (runTurn ⟨false⟩ (fun _ => ⟨some 1, "approve", []⟩) (fun _ _ => "ok")
        [("execute_sql", [("query", Value.vstr "DROP TABLE t")])] 1).1,
      ∀ t a, e ≠ Event.confirmationRequest t a) :=
  ⟨(C4_needs_confirmation ⟨false⟩ "execute_sql" [("query", Value.vstr "DROP TABLE t")]
      (fun _ => ⟨some 1, "approve", []⟩) (fun _ _ => "ok")
      [("execute_sql", [("query", Value.vstr "DROP TABLE t")])] 1).1,
   (C4_needs_confirmation ⟨false⟩ "execute_sql" [("query", Value.vstr "DROP TABLE t")]
      (fun _ => ⟨some 1, "approve", []⟩) (fun _ _ => "ok")
      [("execute_sql", [("query", Value.vstr "DROP TABLE t")])] 1).2 rfl⟩

/-- C5 (claim as stated) is false on the code: rejection (and timeout)
raise `InterruptedError`, which propagates out of the stream and aborts
the whole turn — the error surfaces as a `message` event, not as a
visible tool result, and later tool calls of the turn are never
processed (here the second call produces no event at all).  The last
two conjuncts pin the 300-second boundary: a decision arriving at
301 s is a timeout even if it approves, one arriving at 300 s is not. -/
theorem C5_counterexample :
    runChat ⟨true⟩ (fun _ => ⟨some 10, "reject", []⟩) (fun t _ => t ++ " ok")
        [("execute_sql", []), ("predict", [])] "resp"
      = [Event.confirmationRequest "execute_sql" [],
         Event.message "用户拒绝执行 execute_sql", Event.done] ∧
    runChat ⟨true⟩ (fun _ => ⟨none, "", []⟩) (fun t _ => t ++ " ok")
        [("execute_sql", []), ("predict", [])] "resp"
      = [Event.confirmationRequest "execute_sql" [],
         Event.message "确认超时，取消执行 execute_sql", Event.done] ∧
    runChat ⟨true⟩ (fun _ => ⟨some 301, "approve", []⟩) (fun t _ => t ++ " ok")
        [("execute_sql", [])] "resp"
      = [Event.confirmationRequest "execute_sql" [],
         Event.message "确认超时，取消执行 execute_sql", Event.done] ∧
    runChat ⟨true⟩ (fun _ => ⟨some 300, "approve", []⟩) (fun t _ => t ++ " ok")
        [("execute_sql", [])] "resp"
      = [Event.confirmationRequest "execute_sql" [],
         Event.toolCall "execute_sql" [],
         Event.toolResult "execute_sql" "execute_sql ok",
         Event.message "resp", Event.done] := by
  refine ⟨?_, ?_, ?_, ?_⟩ <;> decide

/-- C5 (amended): for a gated call — (1) a decision arriving within the
300-second window with decision `approve` (or any decision other than
`reject`/effective `edit`) dispatches the call unchanged; (2) decision
`edit` with non-empty `edited_args` merges them into the arguments
before dispatch; (3) `edit` with empty/missing `edited_args` dispatches
unchanged; (4) decision `reject` raises `InterruptedError` and the call
is never dispatched; (5) no decision within 300 seconds raises
`InterruptedError`; and (6) such an error aborts the turn: the
remaining calls are never processed and `run_chat` surfaces the error
text as a `message` event followed by `done` — not as a tool result. -/
theorem C5_confirmation_outcomes (cfg : ModeConfig) (r : Resolution)
    (toolName : String) (toolArgs : Params)
    (hneed : needsConfirmation cfg toolName toolArgs = true) :
    (confirmWait r.arrivesAt = true → r.decision = "approve" →
      onToolCall cfg r toolName toolArgs
        = ([.confirmationRequest toolName toolArgs, .toolCall toolName toolArgs],
           .ok toolArgs)) ∧
    (confirmWait r.arrivesAt = true → r.decision = "edit" → r.editedArgs ≠ [] →
      onToolCall cfg r toolName toolArgs
        = ([.confirmationRequest toolName toolArgs,
            .toolCall toolName (updParams toolArgs r.editedArgs)],
           .ok (updParams toolArgs r.editedArgs))) ∧
    (confirmWait r.arrivesAt = true → r.decision = "edit" → r.editedArgs = [] →
      onToolCall cfg r toolName toolArgs
        = ([.confirmationRequest toolName toolArgs, .toolCall toolName toolArgs],
           .ok toolArgs)) ∧
    (confirmWait r.arrivesAt = true → r.decision = "reject" →
      onToolCall cfg r toolName toolArgs
        = ([.confirmationRequest toolName toolArgs],
           .error ("用户拒绝执行 " ++ toolName))) ∧
    (confirmWait r.arrivesAt = false →
      onToolCall cfg r toolName toolArgs
        = ([.confirmationRequest toolName toolArgs],
           .error ("确认超时，取消执行 " ++ toolName))) ∧
    (∀ (res : Nat → Resolution) (toolRun : String → Params → String)
        (rest : List (String × Params)) (em response : String),
      res 1 = r →
      (onToolCall cfg r toolName toolArgs).2 = .error em →
      runChat cfg res toolRun ((toolName, toolArgs) :: rest) response
        = (onToolCall cfg r toolName toolArgs).1 ++ [.message em, .done]) := by
  refine ⟨?_, ?_, ?_, ?_, ?_, ?_⟩
  · intro hw hdec
    simp [onToolCall, hneed, hw, hdec]
  · intro hw hdec hne
    have hie : r.editedArgs.isEmpty = false := by
      cases h : r.editedArgs
      · exact absurd h hne
      · rfl
    simp [onToolCall, hneed, hw, hdec, hie]
  · intro hw hdec he
    simp [onToolCall, hneed, hw, hdec, he]
  · intro hw hdec
    simp [onToolCall, hneed, hw, hdec]
  · intro hw
    simp [onToolCall, hneed, hw]
  · intro res toolRun rest em response hres herr
    rcases hoc : onToolCall cfg r toolName toolArgs with ⟨evs, exc⟩
    rw [hoc] at herr
    simp only at herr
    subst herr
    have hrt : runTurn cfg res toolRun ((toolName, toolArgs) :: rest) 1
        = (evs, .error em) := by
      simp only [runTurn, hres, hoc]
    simp only [runChat, hrt, hoc]

/-! ## Session manager (`session/manager.py`)

`_cleanup_old_sessions` (run by `__init__`, i.e. by session creation)
and `cleanup`.  The filesystem listing of the sessions base directory is
passed in as data; `shutil.rmtree` on a sibling directory is an external
collaborator `rm` that may fail (`OSError`).  `datetime` values are
modelled as seconds, dates through the standard civil-calendar day
count (leap years included). -/

/-- One entry of `SESSIONS_DIR.iterdir()`. -/
structure Entry where
  name : String
  isDir : Bool
deriving DecidableEq, Repr

/-- `RETENTION_DAYS`. -/
def RETENTION_DAYS : Nat := 7

/-- ASCII digit test for `strptime`. -/
def isDigitChar (c : Char) : Bool := 48 ≤ c.toNat && c.toNat ≤ 57

/-- Digits to a number (most significant first). -/
def digitsToNat (l : List Char) : Nat :=
  l.foldl (fun acc c => acc * 10 + (c.toNat - 48)) 0

/-- Gregorian leap-year rule. -/
def isLeapYear (y : Nat) : Bool := (y % 4 == 0 && y % 100 != 0) || y % 400 == 0

/-- Days in a month. -/
def daysInMonth (y m : Nat) : Nat :=
  if m = 2 then (if isLeapYear y then 29 else 28)
  else if m = 4 ∨ m = 6 ∨ m = 9 ∨ m = 11 then 30
  else 31

/-- `datetime.strptime(s, "%Y%m%d")`: eight digits forming a valid
civil date (year ≥ 1), else `ValueError` (`none`). -/
def strptimeYmd (s : String) : Option (Nat × Nat × Nat) :=
  let cs := s.data
  if cs.length = 8 ∧ cs.all isDigitChar then
    let y := digitsToNat (cs.take 4)
    let m := digitsToNat ((cs.drop 4).take 2)
    let d := digitsToNat (cs.drop 6)
    if 1 ≤ y ∧ 1 ≤ m ∧ m ≤ 12 ∧ 1 ≤ d ∧ d ≤ daysInMonth y m then some (y, m, d)
    else none
  else none

/-- Civil date to absolute day count (standard era/\x7byear of era\x7d
decomposition, leap years included). -/
def daysFromCivil (y m d : Nat) : Nat :=
  let y2 := if m ≤ 2 then y - 1 else y
  let era := y2 / 400
  let yoe := y2 % 400
  let mp := (m + 9) % 12
  let doy := (153 * mp + 2) / 5 + d - 1
  let doe := yoe * 365 + yoe / 4 - yoe / 100 + doy
  era * 146097 + doe

/-- `name.split("_")` (character-level). -/
def splitUnderscoreAux : List Char → List Char → List String
  | [], acc => [⟨acc.reverse⟩]
  | c :: cs, acc =>
      if c = '_' then ⟨acc.reverse⟩ :: splitUnderscoreAux cs []
      else splitUnderscoreAux cs (c :: acc)

/-- `name.split("_")`. -/
def splitUnderscore (s : String) : List String := splitUnderscoreAux s.data []

/-- The parsing step of the reaping loop: `name.split("_")`, require at
least three parts with the first `"session"`, then
`strptime(parts[1], "%Y%m%d")`; the result is the parsed date's
midnight in seconds.  `none` covers both the silent format skip and the
caught `ValueError`. -/
def sessionDateSeconds (name : String) : Option Nat :=
  let parts := splitUnderscore name
  if parts.length ≥ 3 ∧ parts.getD 0 "" = "session" then
    match strptimeYmd (parts.getD 1 "") with
    | none => none
    | some (y, m, d) => some (daysFromCivil y m d * 86400)
  else none

/-- The condition under which `_cleanup_old_sessions` removes an entry:
a directory, not the session being created, whose name parses to a
session date strictly older than `now - RETENTION_DAYS`. -/
def reapable (sessionId : String) (now : Nat) (e : Entry) : Bool :=
  e.isDir && !(e.name == sessionId) &&
    (match sessionDateSeconds e.name with
     | none => false
     | some t => decide (t < now - RETENTION_DAYS * 86400))

/-- `_cleanup_old_sessions`: walk the directory listing; skip files,
the current session, and unparseable names (`ValueError`/`IndexError`
are caught and logged); `shutil.rmtree` old session directories.  A
failing `rmtree` raises `OSError`, which the `except` clause does not
catch — it propagates (`.error`).  On success, returns the names
removed, in order. -/
def cleanupOldSessions (rm : String → Except String Unit) (sessionId : String)
    (now : Nat) : List Entry → Except String (List String)
  | [] => .ok []
  | e :: rest =>
      if !e.isDir then cleanupOldSessions rm sessionId now rest
      else if e.name == sessionId then cleanupOldSessions rm sessionId now rest
      else
        match sessionDateSeconds e.name with
        | none => cleanupOldSessions rm sessionId now rest
        | some t =>
            if t < now - RETENTION_DAYS * 86400 then
              match rm e.name with
              | .error err => .error err
              | .ok _ =>
                  match cleanupOldSessions rm sessionId now rest with
                  | .error err => .error err
                  | .ok l => .ok (e.name :: l)
            else cleanupOldSessions rm sessionId now rest

theorem C5_confirmation_outcomes_witness :
    needsConfirmation ⟨true⟩ "run_sql" [("q", Value.vstr "y")] = true ∧
    (confirmWait (Resolution.mk (some 5) "edit" [("q", Value.vstr "x")]).arrivesAt = true →
      (Resolution.mk (some 5) "edit" [("q", Value.vstr "x")]).decision = "edit" →
      (Resolution.mk (some 5) "edit" [("q", Value.vstr "x")]).editedArgs ≠ [] →
      onToolCall ⟨true⟩ ⟨some 5, "edit", [("q", Value.vstr "x")]⟩ "run_sql"
          [("q", Value.vstr "y")]
        = ([.confirmationRequest "run_sql" [("q", Value.vstr "y")],
            .toolCall "run_sql"
              (updParams [("q", Value.vstr "y")] [("q", Value.vstr "x")])],
           .ok (updParams [("q", Value.vstr "y")] [("q", Value.vstr "x")]))) :=
  ⟨by decide,
    (C5_confirmation_outcomes ⟨true⟩ ⟨some 5, "edit", [("q", Value.vstr "x")]⟩
      "run_sql" [("q", Value.vstr "y")] (by decide)).2.1⟩

/-- C8 (claim as stated) is false on the code: a failure of
`shutil.rmtree` on an old sibling directory is an `OSError`, which the
loop's `except (ValueError, IndexError)` clause does not catch — it
propagates to the caller of `create` instead of being logged. -/
theorem C8_counterexample :
    cleanupOldSessions (fun _ => Except.error "PermissionError: [Errno 13]")
        "session_current" (daysFromCivil 2026 10 12 * 86400)
        [⟨"session_20200101_000000_aaaaaa", true⟩]
      = .error "PermissionError: [Errno 13]" := rfl

/-- C8 (amended): as long as every `rmtree` succeeds, the reaping pass
performed by session creation removes exactly the sibling entries that
are directories, are not the session being created, and whose name
parses (`session_YYYYMMDD_...`) to a date strictly older than the
7-day retention cutoff — in listing order; entries with unparseable
names are skipped (the `ValueError` is caught and logged, never
raised), and the created session's own directory is never removed.
Only a removal failure (`OSError`) can escape. -/
theorem C8_session_reaping (rm : String → Except String Unit) (sessionId : String)
    (now : Nat) (entries : List Entry) (hrm : ∀ s2, rm s2 = .ok ()) :
    cleanupOldSessions rm sessionId now entries
      = .ok ((entries.filter (reapable sessionId now)).map Entry.name) ∧
    sessionId ∉ (entries.filter (reapable sessionId now)).map Entry.name := by
  constructor
  · induction entries with
    | nil => simp [cleanupOldSessions]
    | cons e rest ih =>
        by_cases hdir : e.isDir = true
        · by_cases hname : e.name = sessionId
          · simp [cleanupOldSessions, reapable, hdir, hname, ih]
          · rcases hp : sessionDateSeconds e.name with _ | t
            · simp [cleanupOldSessions, reapable, hdir, hname, hp, ih]
            · by_cases hold : t < now - RETENTION_DAYS * 86400
              · simp [cleanupOldSessions, reapable, hdir, hname, hp, hold, hrm, ih]
              · simp [cleanupOldSessions, reapable, hdir, hname, hp, hold, ih]
        · have hdf : e.isDir = false := by
            cases h : e.isDir
            · rfl
            · exact absurd h hdir
          simp [cleanupOldSessions, reapable, hdf, ih]
  · intro hmem
    rw [List.mem_map] at hmem
    obtain ⟨e, he, hname⟩ := hmem
    rw [List.mem_filter] at he
    have h2 := he.2
    unfold reapable at h2
    rw [hname] at h2
    simp at h2

theorem C8_session_reaping_witness :
    (∀ s2 : String,
      (fun _ : String => (Except.ok () : Except String Unit)) s2 = Except.ok ()) ∧
    (cleanupOldSessions (fun _ : String => Except.ok ()) "session_current"
        (daysFromCivil 2026 10 12 * 86400)
        [⟨"session_20200101_000000_aaaaaa", true⟩, ⟨"session_current", true⟩,
         ⟨"notes.txt", false⟩, ⟨"garbage", true⟩]
      = .ok (([(⟨"session_20200101_000000_aaaaaa", true⟩ : Entry),
          ⟨"session_current", true⟩, ⟨"notes.txt", false⟩,
          ⟨"garbage", true⟩].filter
            (reapable "session_current" (daysFromCivil 2026 10 12 * 86400))).map
          Entry.name) ∧
     "session_current" ∉ ([(⟨"session_20200101_000000_aaaaaa", true⟩ : Entry),
          ⟨"session_current", true⟩, ⟨"notes.txt", false⟩,
          ⟨"garbage", true⟩].filter
            (reapable "session_current" (daysFromCivil 2026 10 12 * 86400))).map
          Entry.name) :=
  ⟨fun _ => rfl,
    C8_session_reaping (fun _ => Except.ok ()) "session_current"
      (daysFromCivil 2026 10 12 * 86400)
      [⟨"session_20200101_000000_aaaaaa", true⟩, ⟨"session_current", true⟩,
       ⟨"notes.txt", false⟩, ⟨"garbage", true⟩] (fun _ => rfl)⟩

/-! ## Session cleanup (`SessionManager.cleanup`)

The on-disk state is the list of existing paths (as component lists
under the base directory; a directory listing includes the directory
itself and everything inside it), the process-wide registry maps
session ids to instances (an instance is identified by a token, so
`_current_session is self` is token equality), and the module-level
current-session pointer. -/

/-- A filesystem path, as components under the base directory. -/
abbrev FsPath := List String

/-- `underDir dir p`: `p` is `dir` itself or lies inside it. -/
def underDir : FsPath → FsPath → Bool
  | [], _ => true
  | _ :: _, [] => false
  | a :: as, b :: bs => a == b && underDir as bs

/-- `shutil.rmtree(dir)`: the directory and everything inside it
disappear. -/
def rmtreeFs (fs : List FsPath) (dir : FsPath) : List FsPath :=
  fs.filter fun p => !(underDir dir p)

/-- A `SessionManager` instance: its identity (token) and its id. -/
structure Session where
  token : Nat
  sessionId : String
deriving DecidableEq, Repr

/-- `self.session_dir = SESSIONS_DIR / self.session_id`. -/
def Session.sessionDir (s : Session) : FsPath := ["sessions", s.sessionId]

/-- The module-level state: filesystem, `_session_registry`,
`_current_session`. -/
structure SessionState where
  fs : List FsPath
  registry : List (String × Nat)
  current : Option Nat
deriving DecidableEq, Repr

/-- Registry lookup (`_session_registry.get`). -/
def lookupReg : List (String × Nat) → String → Option Nat
  | [], _ => none
  | kv :: t, k => if kv.1 = k then some kv.2 else lookupReg t k

/-- `get_session_by_id`. -/
def getSessionById (st : SessionState) (id2 : String) : Option Nat :=
  lookupReg st.registry id2

/-- `del _session_registry[session_id]`. -/
def removeReg : List (String × Nat) → String → List (String × Nat)
  | [], _ => []
  | kv :: t, k => if kv.1 = k then t else kv :: removeReg t k

/-- `SessionManager.cleanup`: remove the directory tree if it exists,
clear `_current_session` iff it is this instance, drop the registry
entry if present. -/
def Session.cleanup (s : Session) (st : SessionState) : SessionState :=
  let fs2 := if s.sessionDir ∈ st.fs then rmtreeFs st.fs s.sessionDir else st.fs
  let cur2 := if st.current = some s.token then none else st.current
  let reg2 := if (lookupReg st.registry s.sessionId).isSome
              then removeReg st.registry s.sessionId
              else st.registry
  { fs := fs2, registry := reg2, current := cur2 }

lemma lookupReg_eq_none {reg : List (String × Nat)} {k : String}
    (h : k ∉ reg.map Prod.fst) : lookupReg reg k = none := by
  induction reg with
  | nil => rfl
  | cons kv t ih =>
      simp only [List.map_cons, List.mem_cons] at h
      push_neg at h
      simp only [lookupReg]
      rw [if_neg (Ne.symm h.1)]
      exact ih h.2

lemma lookupReg_removeReg_self {reg : List (String × Nat)} {k : String}
    (h : (reg.map Prod.fst).Nodup) : lookupReg (removeReg reg k) k = none := by
  induction reg with
  | nil => rfl
  | cons kv t ih =>
      simp only [List.map_cons, List.nodup_cons] at h
      by_cases hk : kv.1 = k
      · simp only [removeReg, if_pos hk]
        apply lookupReg_eq_none
        rw [← hk]
        exact h.1
      · simp only [removeReg, if_neg hk, lookupReg]
        exact ih h.2

lemma lookupReg_removeReg_ne {reg : List (String × Nat)} {k k2 : String}
    (h : k2 ≠ k) : lookupReg (removeReg reg k) k2 = lookupReg reg k2 := by
  induction reg with
  | nil => rfl
  | cons kv t ih =>
      by_cases hk : kv.1 = k
      · simp only [removeReg, if_pos hk, lookupReg]
        rw [if_neg fun hh => h ((hk.symm.trans hh).symm)]
      · simp only [removeReg, if_neg hk, lookupReg]
        by_cases hk2 : kv.1 = k2
        · rw [if_pos hk2, if_pos hk2]
        · rw [if_neg hk2, if_neg hk2]
          exact ih

/-- C10: `cleanup` removes the session's entire directory tree (the
exports and workspace directories and their contents lie under it),
keeps every path outside it, deregisters the id so that
`get_session_by_id` then returns `none` while other ids are untouched,
and clears the current-session pointer exactly when it pointed to this
instance.  `hwf` says the listing is prefix-closed at the session
directory (anything inside it implies the directory itself exists);
`hnodup` is dict key uniqueness. -/
theorem C10_session_cleanup (s : Session) (st : SessionState)
    (hwf : ∀ p ∈ st.fs, underDir s.sessionDir p = true → s.sessionDir ∈ st.fs)
    (hnodup : (st.registry.map Prod.fst).Nodup) :
    (∀ p ∈ (s.cleanup st).fs, underDir s.sessionDir p = false) ∧
    (∀ p ∈ st.fs, underDir s.sessionDir p = false → p ∈ (s.cleanup st).fs) ∧
    getSessionById (s.cleanup st) s.sessionId = none ∧
    (∀ k, k ≠ s.sessionId →
      getSessionById (s.cleanup st) k = getSessionById st k) ∧
    (st.current = some s.token → (s.cleanup st).current = none) ∧
    (st.current ≠ some s.token → (s.cleanup st).current = st.current) := by
  refine ⟨?_, ?_, ?_, ?_, ?_, ?_⟩
  · intro p hp
    simp only [Session.cleanup] at hp
    by_cases hex : s.sessionDir ∈ st.fs
    · rw [if_pos hex] at hp
      have := (List.mem_filter.mp hp).2
      cases hud : underDir s.sessionDir p
      · rfl
      · rw [hud] at this
        simp at this
    · rw [if_neg hex] at hp
      cases hud : underDir s.sessionDir p
      · rfl
      · exact absurd (hwf p hp hud) hex
  · intro p hp hout
    simp only [Session.cleanup]
    by_cases hex : s.sessionDir ∈ st.fs
    · rw [if_pos hex]
      refine List.mem_filter.mpr ⟨hp, ?_⟩
      rw [hout]
      rfl
    · rw [if_neg hex]
      exact hp
  · simp only [getSessionById, Session.cleanup]
    by_cases hs : (lookupReg st.registry s.sessionId).isSome = true
    · rw [if_pos hs]
      exact lookupReg_removeReg_self hnodup
    · rw [if_neg hs]
      exact Option.not_isSome_iff_eq_none.mp hs
  · intro k hk
    simp only [getSessionById, Session.cleanup]
    by_cases hs : (lookupReg st.registry s.sessionId).isSome = true
    · rw [if_pos hs]
      exact lookupReg_removeReg_ne hk
    · rw [if_neg hs]
  · intro h
    simp only [Session.cleanup]
    rw [if_pos h]
  · intro h
    simp only [Session.cleanup]
    rw [if_neg h]

theorem C10_session_cleanup_witness :
    (∀ p ∈ ([["sessions"], ["sessions", "session_A"],
        ["sessions", "session_A", "exports"],
        ["sessions", "session_A", "exports", "result.csv"],
        ["sessions", "session_A", "workspace"],
        ["sessions", "session_B"]] : List FsPath),
      underDir (Session.sessionDir ⟨7, "session_A"⟩) p = true →
        Session.sessionDir ⟨7, "session_A"⟩ ∈
          ([["sessions"], ["sessions", "session_A"],
            ["sessions", "session_A", "exports"],
            ["sessions", "session_A", "exports", "result.csv"],
            ["sessions", "session_A", "workspace"],
            ["sessions", "session_B"]] : List FsPath)) ∧
    ((([("session_A", 7), ("session_B", 9)] : List (String × Nat)).map
        Prod.fst).Nodup) ∧
    getSessionById
        (Session.cleanup ⟨7, "session_A"⟩
          ⟨[["sessions"], ["sessions", "session_A"],
            ["sessions", "session_A", "exports"],
            ["sessions", "session_A", "exports", "result.csv"],
            ["sessions", "session_A", "workspace"],
            ["sessions", "session_B"]],
           [("session_A", 7), ("session_B", 9)], some 7⟩)
        "session_A" = none ∧
    (Session.cleanup ⟨7, "session_A"⟩
          ⟨[["sessions"], ["sessions", "session_A"],
            ["sessions", "session_A", "exports"],
            ["sessions", "session_A", "exports", "result.csv"],
            ["sessions", "session_A", "workspace"],
            ["sessions", "session_B"]],
           [("session_A", 7), ("session_B", 9)], some 7⟩).current = none :=
  ⟨by decide, by decide,
    (C10_session_cleanup ⟨7, "session_A"⟩
      ⟨[["sessions"], ["sessions", "session_A"],
        ["sessions", "session_A", "exports"],
        ["sessions", "session_A", "exports", "result.csv"],
        ["sessions", "session_A", "workspace"],
        ["sessions", "session_B"]],
       [("session_A", 7), ("session_B", 9)], some 7⟩
      (by decide) (by decide)).2.2.1,
    (C10_session_cleanup ⟨7, "session_A"⟩
      ⟨[["sessions"], ["sessions", "session_A"],
        ["sessions", "session_A", "exports"],
        ["sessions", "session_A", "exports", "result.csv"],
        ["sessions", "session_A", "workspace"],
        ["sessions", "session_B"]],
       [("session_A", 7), ("session_B", 9)], some 7⟩
      (by decide) (by decide)).2.2.2.2.1 rfl⟩

end DataAgent
